import Mathlib

/-!
Verification development for the task-scheduling core of the repository:
a shallow embedding of src/core/ready_tasks.py, src/core/conditional_branching.py
and src/core/topological_sort.py, followed by theorems about the embedded code.

Python dictionaries are modelled as association lists in insertion order
(keys unique in every well-formed queue, stated as Nodup hypotheses where a
theorem needs it).  Functions that can raise in Python return Option, with
none modelling the raised exception.
-/

namespace Sched

/-- Task execution state machine (class TaskState in ready_tasks.py). -/
inductive TaskState where
  | pending
  | ready
  | in_progress
  | completed
  | failed
deriving DecidableEq, Repr

/-- Parse a state string, as used by update_task_state validation
(valid_states membership check). none models an invalid state string. -/
def TaskState.ofString : String → Option TaskState
  | "pending" => some .pending
  | "ready" => some .ready
  | "in_progress" => some .in_progress
  | "completed" => some .completed
  | "failed" => some .failed
  | _ => none

/-- Condition evaluation types (class ConditionType in conditional_branching.py). -/
inductive Condition where
  | success
  | failure
  | always
deriving DecidableEq, Repr

/-- A task result record: {"success": bool, "output": str}. -/
structure TaskResult where
  success : Bool
  output : String
deriving DecidableEq, Repr

/-- One task record of the task queue:
{"state": ..., "dependencies": [...], "result": None | {...}, "condition": ...}.
The condition field defaults to "always" in the Python code
(task_info.get("condition", "always")); here it is always present with that default. -/
structure Task where
  state : TaskState
  dependencies : List String
  result : Option TaskResult
  condition : Condition := .always
deriving DecidableEq, Repr

/-- task_queue: {task_id: {state, dependencies, result, condition?}},
an insertion-ordered dict modelled as an association list. -/
abbrev TaskQueue := List (String × Task)

/-- Python dict lookup task_queue[id] / task_queue.get(id): first entry with the key. -/
def lookupTask (q : TaskQueue) (id : String) : Option Task :=
  (q.find? (fun p => p.1 == id)).map (·.2)

/-- Python membership test: id in task_queue. -/
def hasKey (q : TaskQueue) (id : String) : Bool :=
  q.any (fun p => p.1 == id)

/-- The skip test of get_ready_tasks and get_blocked_tasks:
state in [IN_PROGRESS, COMPLETED, FAILED]. -/
def skipState (s : TaskState) : Bool :=
  s == .in_progress || s == .completed || s == .failed

/-- Body of the dependency loop of _check_dependencies_satisfied for one
dependency id: the dependency must exist, be completed, have a non-None
result, and its success flag must be true. -/
def depSatisfied (q : TaskQueue) (dep_id : String) : Bool :=
  match lookupTask q dep_id with
  | none => false
  | some dep_task =>
    if dep_task.state ≠ TaskState.completed then false
    else
      match dep_task.result with
      | none => false
      | some r => r.success

/-- _check_dependencies_satisfied(task_id, task_queue, dependencies):
true iff every listed dependency is completed successfully
(the task_id argument is used only for debugging in the source). -/
def check_dependencies_satisfied (q : TaskQueue) (dependencies : List String) : Bool :=
  dependencies.all (depSatisfied q)

/-- get_ready_tasks(task_queue): tasks whose state is not
in_progress/completed/failed and whose dependencies are all satisfied. -/
def get_ready_tasks (q : TaskQueue) : List String :=
  (q.filter (fun p =>
    !skipState p.2.state && check_dependencies_satisfied q p.2.dependencies)).map (·.1)

/-- update_task_state(task_queue, task_id, new_state, result):
raises ValueError (modelled as none) when the task is unknown or the state
string is invalid; otherwise sets the state and, when a result is given,
the result, of the matching entry. -/
def update_task_state (q : TaskQueue) (task_id : String) (new_state : String)
    (result : Option TaskResult) : Option TaskQueue :=
  if ¬ hasKey q task_id then none
  else
    match TaskState.ofString new_state with
    | none => none
    | some st =>
      some (q.map (fun p =>
        if p.1 == task_id then
          (p.1, { p.2 with
                  state := st,
                  result := match result with | none => p.2.result | some r => some r })
        else p))

/-- The state a task id had in the previous queue:
prev_task_queue.get(task_id, \x7b\x7d).get("state", "pending"). -/
def prevStateOf (prev : TaskQueue) (id : String) : TaskState :=
  match lookupTask prev id with
  | none => TaskState.pending
  | some t => t.state

/-- Inner loop of get_ready_tasks_incremental: the dependents of the
just-completed task_id that are pending with all dependencies now satisfied. -/
def incrementalDependents (upd : TaskQueue) (task_id : String) : List String :=
  (upd.filter (fun p =>
    p.1 ≠ task_id &&
    p.2.dependencies.contains task_id &&
    p.2.state == TaskState.pending &&
    check_dependencies_satisfied upd p.2.dependencies)).map (·.1)

/-- get_ready_tasks_incremental(prev_task_queue, updated_task_queue):
for every task whose state changed to completed, collect its newly ready
pending dependents. -/
def get_ready_tasks_incremental (prev upd : TaskQueue) : List String :=
  ((upd.filter (fun p =>
    prevStateOf prev p.1 ≠ p.2.state && p.2.state == TaskState.completed)).map
      (fun p => incrementalDependents upd p.1)).flatten

/-- Python set equality of two id lists: set(a) == set(b). -/
def sameIdSet (a b : List String) : Bool :=
  a.all (b.contains ·) && b.all (a.contains ·)

/-- validate_ready_state(task_queue, ready_tasks): recomputed set must equal
the given set, and every given task must exist, be pending, and have all its
dependencies satisfied. -/
def validate_ready_state (q : TaskQueue) (ready_tasks : List String) : Bool :=
  sameIdSet (get_ready_tasks q) ready_tasks &&
  ready_tasks.all (fun id =>
    match lookupTask q id with
    | none => false
    | some t =>
      t.state == TaskState.pending && check_dependencies_satisfied q t.dependencies)

/-- Dependency loop of get_blocked_tasks: the incomplete dependencies of one
task, or none when the code raises AttributeError (dep_result.get on a None
result of a completed dependency). -/
def blockedDeps (q : TaskQueue) : List String → Option (List String)
  | [] => some []
  | dep_id :: rest =>
    match lookupTask q dep_id with
    | none => (blockedDeps q rest).map (dep_id :: ·)
    | some dep_task =>
      if dep_task.state ≠ TaskState.completed then
        (blockedDeps q rest).map (dep_id :: ·)
      else
        match dep_task.result with
        | none => none
        | some r =>
          if !r.success then (blockedDeps q rest).map (dep_id :: ·)
          else blockedDeps q rest

/-- Outer loop of get_blocked_tasks over the queue entries. -/
def get_blocked_tasks_aux (q : TaskQueue) : List (String × Task) →
    Option (List (String × List String))
  | [] => some []
  | (id, t) :: rest =>
    if skipState t.state then get_blocked_tasks_aux q rest
    else
      match blockedDeps q t.dependencies with
      | none => none
      | some incomplete =>
        if incomplete.isEmpty then get_blocked_tasks_aux q rest
        else (get_blocked_tasks_aux q rest).map ((id, incomplete) :: ·)

/-- get_blocked_tasks(task_queue): map from blocked task to its incomplete
dependencies; none models the AttributeError raised on a completed
dependency whose result is None. -/
def get_blocked_tasks (q : TaskQueue) : Option (List (String × List String)) :=
  get_blocked_tasks_aux q q

/-- evaluate_condition(condition, parent_state, parent_result) from
conditional_branching.py. -/
def evaluate_condition (c : Condition) (parent_state : TaskState)
    (parent_result : Option TaskResult) : Bool :=
  match c with
  | .always => parent_state == .completed || parent_state == .failed
  | .success =>
    if parent_state ≠ TaskState.completed then false
    else
      match parent_result with
      | none => false
      | some r => r.success
  | .failure =>
    if parent_state == TaskState.failed then true
    else if parent_state == TaskState.completed then
      match parent_result with
      | none => false
      | some r => !r.success
    else false

/-- The condition of the task being checked:
task_queue.get(task_id, \x7b\x7d).get("condition", "always"). -/
def conditionOf (q : TaskQueue) (task_id : String) : Condition :=
  match lookupTask q task_id with
  | none => Condition.always
  | some t => t.condition

/-- Dependency loop body of check_conditional_dependencies_satisfied: the
dependency must exist, be in a final state (completed or failed), and
satisfy the task's condition. -/
def conditionalDepSatisfied (q : TaskQueue) (c : Condition) (dep_id : String) : Bool :=
  match lookupTask q dep_id with
  | none => false
  | some dep_task =>
    (dep_task.state == TaskState.completed || dep_task.state == TaskState.failed) &&
    evaluate_condition c dep_task.state dep_task.result

/-- check_conditional_dependencies_satisfied(task_id, task_queue, dependencies). -/
def check_conditional_dependencies_satisfied (q : TaskQueue) (task_id : String)
    (dependencies : List String) : Bool :=
  dependencies.all (conditionalDepSatisfied q (conditionOf q task_id))

/-- get_ready_tasks_with_conditions(task_queue). -/
def get_ready_tasks_with_conditions (q : TaskQueue) : List String :=
  (q.filter (fun p =>
    !skipState p.2.state &&
    check_conditional_dependencies_satisfied q p.1 p.2.dependencies)).map (·.1)

/-- Validation result of validate_conditional_graph: {valid: bool, errors: [...]}. -/
structure ValidationResult where
  valid : Bool
  errors : List String
deriving DecidableEq, Repr

/-- The errors list accumulated by validate_conditional_graph: with
conditions represented by the Condition enum the invalid-condition branch
cannot fire, so the errors are exactly the missing-dependency reports, in
queue order. -/
def conditionalGraphErrors (q : TaskQueue) : List String :=
  q.flatMap (fun p =>
    (p.2.dependencies.filter (fun dep_id => !hasKey q dep_id)).map (fun dep_id =>
      s!"Task {p.1}: dependency {dep_id} not found in task queue"))

/-- validate_conditional_graph(task_queue): {valid: len(errors) == 0, errors}. -/
def validate_conditional_graph (q : TaskQueue) : ValidationResult :=
  { valid := (conditionalGraphErrors q).isEmpty, errors := conditionalGraphErrors q }

/-! ### topological_sort.py -/

/-- A task dependency graph {task_id: [dependency_ids]} as an
insertion-ordered association list. -/
abbrev Graph := List (String × List String)

/-- The dependency list of a node: task_graph[node] for keys, [] otherwise
(used only where the Python code already knows the key exists). -/
def getDeps (g : Graph) (id : String) : List String :=
  ((g.find? (fun p => p.1 == id)).map (·.2)).getD []

/-- Key membership in the graph dict. -/
def isKey (g : Graph) (id : String) : Bool :=
  g.any (fun p => p.1 == id)

/-- Keep the first occurrence of every element not already seen —
the effect of repeated insert-if-absent into a dict. -/
def dedupFirstAux : List String → List String → List String
  | [], _ => []
  | d :: rest, seen =>
    if seen.contains d then dedupFirstAux rest seen
    else d :: dedupFirstAux rest (d :: seen)

/-- Keep the first occurrence of every element, dropping later duplicates. -/
def dedupFirst (l : List String) : List String :=
  dedupFirstAux l []

/-- Step 1 of topological_sort / get_parallel_batches: the in_degree dict.
Keys of the graph are inserted first (in graph order) with value
len(dependencies); dependency ids that are not keys are then appended with
value 0, in first-encounter order.  Degrees are integers, as in Python. -/
def initInDegree (g : Graph) : List (String × Int) :=
  g.map (fun p => (p.1, (p.2.length : Int))) ++
    (dedupFirst ((g.flatMap (·.2)).filter (fun d => !isKey g d))).map (fun d => (d, 0))

/-- in_degree lookup (the Python code only reads keys that are present). -/
def degGet (m : List (String × Int)) (id : String) : Int :=
  (((m.find? (fun p => p.1 == id)).map (·.2)).getD 0)

/-- in_degree[id] = v on an existing key. -/
def degSet (m : List (String × Int)) (id : String) (v : Int) : List (String × Int) :=
  m.map (fun p => if p.1 == id then (p.1, v) else p)

/-- Inner loop shared by topological_sort and get_parallel_batches: after
node is emitted, walk all graph entries; every dependent that lists node as
a dependency has its in-degree decremented and is appended to the pending
list when the decremented degree is exactly 0. -/
def decStep (g : Graph) (node : String) (st : List (String × Int) × List String) :
    List (String × Int) × List String :=
  g.foldl (fun st p =>
    if p.2.contains node then
      let deg := degGet st.1 p.1 - 1
      (degSet st.1 p.1 deg, if deg == 0 then st.2 ++ [p.1] else st.2)
    else st) st

/-- The BFS loop of topological_sort (Kahn's algorithm).  The fuel bounds the
number of iterations; every node is enqueued at most once, so fuel equal to
the size of the in_degree map is enough for the loop to drain the queue. -/
def kahnLoop (g : Graph) : Nat → List (String × Int) → List String → List String → List String
  | 0, _, _, result => result
  | fuel + 1, indeg, queue, result =>
    match queue with
    | [] => result
    | node :: rest =>
      let st := decStep g node (indeg, rest)
      kahnLoop g fuel st.1 st.2 (result ++ [node])

/-- topological_sort(task_graph) from topological_sort.py: Kahn's algorithm,
returning whatever has been emitted when the queue drains — with no check
that the result covers the whole node set. -/
def topological_sort (g : Graph) : List String :=
  if g.isEmpty then []
  else
    let indeg := initInDegree g
    kahnLoop g indeg.length indeg ((indeg.filter (fun p => p.2 == 0)).map (·.1)) []

/-- The batch loop of get_parallel_batches: emit the current zero-degree
frontier as a batch, decrement the in-degrees of its dependents, and
continue with the nodes that reached zero. -/
def batchLoop (g : Graph) : Nat → List (String × Int) → List String →
    List (List String) → List (List String)
  | 0, _, _, batches => batches
  | fuel + 1, indeg, current, batches =>
    if current.isEmpty then batches
    else
      let st := current.foldl (fun st node => decStep g node st) (indeg, [])
      batchLoop g fuel st.1 st.2 (batches ++ [current])

/-- get_parallel_batches(task_graph) from topological_sort.py. -/
def get_parallel_batches (g : Graph) : List (List String) :=
  if g.isEmpty then []
  else
    let indeg := initInDegree g
    batchLoop g indeg.length indeg ((indeg.filter (fun p => p.2 == 0)).map (·.1)) []

/-- The position dict of validate_ordering:
\x7btask: idx for idx, task in enumerate(ordering)\x7d — a later index
overwrites an earlier one, so this is the index of the last occurrence. -/
def lastPosAux (x : String) : List String → Nat → Nat → Nat
  | [], _, acc => acc
  | a :: rest, i, acc => lastPosAux x rest (i + 1) (if a == x then i else acc)

/-- position[x] for the validate_ordering position dict. -/
def lastPos (ordering : List String) (x : String) : Nat :=
  lastPosAux x ordering 0 0

/-- Membership of x in the node set of the graph (keys plus all ids that
appear in a dependency list) — set membership, as validate_ordering
compares sets. -/
def inAllNodes (g : Graph) (x : String) : Bool :=
  g.any (fun p => p.1 == x || p.2.contains x)

/-- validate_ordering(task_graph, ordering) from topological_sort.py. -/
def validate_ordering (g : Graph) (ordering : List String) : Bool :=
  if g.isEmpty && ordering.isEmpty then true
  else if g.isEmpty || ordering.isEmpty then false
  else
    (ordering.all (inAllNodes g) &&
      g.all (fun p => ordering.contains p.1 && p.2.all (ordering.contains ·))) &&
    g.all (fun p => p.2.all (fun dep => lastPos ordering dep < lastPos ordering p.1))

/-! ### Derived definitions used by the correctness proofs -/

/-- Generic first-match association lookup (Python dict access);
lookupTask, getDeps and degGet are all instances of it. -/
def alistFind {β : Type} (m : List (String × β)) (x : String) : Option β :=
  (m.find? (fun p => p.1 == x)).map (·.2)

/-- The node set of the graph in in_degree insertion order: all keys, then
all non-key dependency ids. -/
def nodeList (g : Graph) : List String :=
  (initInDegree g).map Prod.fst

/-- The ordering invariant of a topological result: every element's
dependencies lie in the accumulated prefix before it. -/
def depClosedOrder (g : Graph) : List String → List String → Prop
  | _, [] => True
  | acc, x :: rest =>
    (∀ d ∈ getDeps g x, d ∈ acc) ∧ depClosedOrder g (acc ++ [x]) rest

/-- The ordering invariant of a batch list: every batch's members depend
only on nodes of the accumulated earlier batches. -/
def batchOrder (g : Graph) : List String → List (List String) → Prop
  | _, [] => True
  | acc, b :: rest =>
    (∀ x ∈ b, ∀ d ∈ getDeps g x, d ∈ acc) ∧ batchOrder g (acc ++ b) rest

/-- Loop invariant of the Kahn BFS loop, relating the in-degree map, the
queue and the emitted result. -/
structure KahnInv (g : Graph) (indeg : List (String × Int))
    (queue result : List String) : Prop where
  keys_eq : indeg.map Prod.fst = nodeList g
  nodup : (result ++ queue).Nodup
  closed : ∀ x, x ∈ result ++ queue ↔
    (x ∈ nodeList g ∧ ∀ d ∈ getDeps g x, d ∈ result)
  deg : ∀ x ∈ nodeList g, degGet indeg x =
    (((getDeps g x).filter (fun d => !result.contains d)).length : Int)
  ordered : depClosedOrder g [] result

/-- Loop invariant of the batch loop, relating the in-degree map, the
current frontier and the emitted batches. -/
structure BatchInv (g : Graph) (indeg : List (String × Int))
    (current : List String) (batches : List (List String)) : Prop where
  keys_eq : indeg.map Prod.fst = nodeList g
  nodup : (batches.flatten ++ current).Nodup
  closed : ∀ x, x ∈ batches.flatten ++ current ↔
    (x ∈ nodeList g ∧ ∀ d ∈ getDeps g x, d ∈ batches.flatten)
  deg : ∀ x ∈ nodeList g, degGet indeg x =
    (((getDeps g x).filter (fun d => !batches.flatten.contains d)).length : Int)
  ordered : batchOrder g [] batches

/-- A rank function for acyclicity witnesses over the diamond graph. -/
def rankW : String → Nat :=
  fun s => if s = "A" then 0 else if s = "D" then 2 else 1

/-- The diamond graph A → {B, C} → D from the docstring examples. -/
def exG2 : Graph := [("A", []), ("B", ["A"]), ("C", ["A"]), ("D", ["B", "C"])]

/-! ### Concrete queues used by witnesses and counterexamples -/

/-- A small concrete queue used by witnesses: a successfully completed task,
a pending dependent, and a pending task with no dependencies. -/
def exQw : TaskQueue :=
  [("A", { state := .completed, dependencies := [], result := some ⟨true, "done"⟩ }),
   ("B", { state := .pending, dependencies := ["A"], result := none }),
   ("Z", { state := .pending, dependencies := [], result := none })]

/-- A concrete conditional queue used by witnesses: A completed with
success=false, B gated on success, C gated on failure. -/
def exQf : TaskQueue :=
  [("A", { state := .completed, dependencies := [], result := some ⟨false, "err"⟩ }),
   ("B", { state := .pending, dependencies := ["A"], result := none, condition := .success }),
   ("C", { state := .pending, dependencies := ["A"], result := none, condition := .failure })]

/-- C9 counterexample: a queue whose only task carries the transient state
"ready"; get_ready_tasks reports it but validate_ready_state rejects the
evaluator's own output because it insists on state "pending". -/
def qRy : TaskQueue := [("A", { state := .ready, dependencies := [], result := none })]

/-- A concrete queue whose only task lists an unknown dependency. -/
def qMiss : TaskQueue := [("A", { state := .pending, dependencies := ["Z"], result := none })]

/-- C8 counterexample: a dependency in state completed whose result is None
makes get_blocked_tasks raise AttributeError (modelled as none) instead of
returning normally. -/
def qNoneRes : TaskQueue :=
  [("A", { state := .completed, dependencies := [], result := none }),
   ("B", { state := .pending, dependencies := ["A"], result := none })]

/-- A queue with an in_progress dependency: no completed task lacks a result. -/
def qMidFlight : TaskQueue :=
  [("A", { state := .in_progress, dependencies := [], result := none }),
   ("B", { state := .pending, dependencies := ["A"], result := none })]

/-- The after-queue of a single task transition: the entry of task c is
replaced by tc', all other entries are unchanged. -/
def replaceQ (q : TaskQueue) (c : String) (tc' : Task) : TaskQueue :=
  q.map (fun p => if p.1 = c then (c, tc') else p)

/-- Concrete before-queue for the incremental witness. -/
def beforeW : TaskQueue :=
  [("A", { state := .in_progress, dependencies := [], result := none }),
   ("B", { state := .pending, dependencies := ["A"], result := none })]

/-- The completed replacement entry for the incremental witness. -/
def tcAfter : Task := { state := .completed, dependencies := [], result := some ⟨true, "ok"⟩ }

/-! ### Basic lemmas about queue lookup and the ready-set evaluators -/

theorem lookupTask_cons (p : String × Task) (rest : TaskQueue) (id : String) :
    lookupTask (p :: rest) id = if p.1 = id then some p.2 else lookupTask rest id := by
  by_cases h : p.1 = id <;> simp [lookupTask, List.find?_cons, h]

theorem lookupTask_eq_some_iff {q : TaskQueue} (hnd : (q.map Prod.fst).Nodup)
    {id : String} {t : Task} :
    lookupTask q id = some t ↔ (id, t) ∈ q := by
  induction q with
  | nil => simp [lookupTask]
  | cons p rest ih =>
    obtain ⟨a, b⟩ := p
    rw [lookupTask_cons]
    simp only [List.map_cons, List.nodup_cons] at hnd
    by_cases h : a = id
    · subst h
      rw [if_pos rfl]
      simp only [Option.some_inj, List.mem_cons, Prod.mk.injEq]
      constructor
      · rintro rfl
        exact Or.inl ⟨trivial, rfl⟩
      · rintro (⟨-, rfl⟩ | hmem)
        · rfl
        · exact absurd (List.mem_map_of_mem Prod.fst hmem) hnd.1
    · rw [if_neg h, ih hnd.2]
      simp only [List.mem_cons, Prod.mk.injEq]
      constructor
      · exact fun hm => Or.inr hm
      · rintro (⟨rfl, -⟩ | hm)
        · exact absurd rfl h
        · exact hm

theorem mem_get_ready_tasks {q : TaskQueue} {id : String} :
    id ∈ get_ready_tasks q ↔
      ∃ t, (id, t) ∈ q ∧ skipState t.state = false ∧
        check_dependencies_satisfied q t.dependencies = true := by
  unfold get_ready_tasks
  simp only [List.mem_map, List.mem_filter, Bool.and_eq_true, Bool.not_eq_true']
  constructor
  · rintro ⟨p, ⟨hp, h1, h2⟩, rfl⟩
    exact ⟨p.2, hp, h1, h2⟩
  · rintro ⟨t, hmem, h1, h2⟩
    exact ⟨(id, t), ⟨hmem, h1, h2⟩, rfl⟩

theorem depSatisfied_iff {q : TaskQueue} {d : String} :
    depSatisfied q d = true ↔
      ∃ dt r, lookupTask q d = some dt ∧ dt.state = TaskState.completed ∧
        dt.result = some r ∧ r.success = true := by
  unfold depSatisfied
  cases h : lookupTask q d with
  | none => simp
  | some dt =>
    cases hr : dt.result with
    | none =>
      by_cases hs : dt.state = TaskState.completed <;> simp [hs, hr]
    | some r =>
      by_cases hs : dt.state = TaskState.completed <;> simp [hs, hr]

theorem check_dependencies_satisfied_iff {q : TaskQueue} {deps : List String} :
    check_dependencies_satisfied q deps = true ↔ ∀ d ∈ deps, depSatisfied q d = true :=
  List.all_eq_true

end Sched

/-! ## Claim theorems -/

namespace Sched

/-- C2: for every task queue (with dict-unique keys), get_ready_tasks returns
exactly the ids whose state is not in_progress/completed/failed and all of
whose dependencies are completed with a successful result; in particular a
task with no dependencies and a non-terminal, non-in_progress state is
always included. -/
theorem get_ready_tasks_correct (q : TaskQueue) (hnd : (q.map Prod.fst).Nodup) :
    (∀ id, id ∈ get_ready_tasks q ↔
      ∃ t, lookupTask q id = some t ∧ skipState t.state = false ∧
        ∀ d ∈ t.dependencies, ∃ dt r, lookupTask q d = some dt ∧
          dt.state = TaskState.completed ∧ dt.result = some r ∧ r.success = true) ∧
    (∀ id t, lookupTask q id = some t → t.dependencies = [] →
      skipState t.state = false → id ∈ get_ready_tasks q) := by
  constructor
  · intro id
    rw [mem_get_ready_tasks]
    constructor
    · rintro ⟨t, hmem, h1, h2⟩
      refine ⟨t, (lookupTask_eq_some_iff hnd).2 hmem, h1, ?_⟩
      intro d hd
      exact depSatisfied_iff.1 (check_dependencies_satisfied_iff.1 h2 d hd)
    · rintro ⟨t, hlk, h1, h2⟩
      refine ⟨t, (lookupTask_eq_some_iff hnd).1 hlk, h1, ?_⟩
      exact check_dependencies_satisfied_iff.2 (fun d hd => depSatisfied_iff.2 (h2 d hd))
  · intro id t hlk hdeps hskip
    rw [mem_get_ready_tasks]
    refine ⟨t, (lookupTask_eq_some_iff hnd).1 hlk, hskip, ?_⟩
    rw [hdeps]
    rfl

theorem get_ready_tasks_correct_witness : "Z" ∈ get_ready_tasks exQw :=
  (get_ready_tasks_correct exQw (by decide)).2 "Z"
    { state := .pending, dependencies := [], result := none } rfl rfl rfl

theorem mem_get_ready_tasks_with_conditions {q : TaskQueue} {id : String} :
    id ∈ get_ready_tasks_with_conditions q ↔
      ∃ t, (id, t) ∈ q ∧ skipState t.state = false ∧
        check_conditional_dependencies_satisfied q id t.dependencies = true := by
  unfold get_ready_tasks_with_conditions
  simp only [List.mem_map, List.mem_filter, Bool.and_eq_true, Bool.not_eq_true']
  constructor
  · rintro ⟨p, ⟨hp, h1, h2⟩, rfl⟩
    exact ⟨p.2, hp, h1, h2⟩
  · rintro ⟨t, hmem, h1, h2⟩
    exact ⟨(id, t), ⟨hmem, h1, h2⟩, rfl⟩

theorem conditionalDepSatisfied_iff {q : TaskQueue} {c : Condition} {d : String} :
    conditionalDepSatisfied q c d = true ↔
      ∃ dt, lookupTask q d = some dt ∧
        (dt.state = TaskState.completed ∨ dt.state = TaskState.failed) ∧
        evaluate_condition c dt.state dt.result = true := by
  unfold conditionalDepSatisfied
  cases h : lookupTask q d with
  | none => simp
  | some dt => simp [h]

theorem evaluate_condition_failure_iff {s : TaskState} {r : Option TaskResult} :
    evaluate_condition Condition.failure s r = true ↔
      s = TaskState.failed ∨
        (s = TaskState.completed ∧ ∃ rr, r = some rr ∧ rr.success = false) := by
  cases s <;> cases r <;> simp [evaluate_condition]

theorem conditionOf_eq {q : TaskQueue} {id : String} {t : Task}
    (h : lookupTask q id = some t) : conditionOf q id = t.condition := by
  simp [conditionOf, h]

theorem conditionalDep_failure_iff {q : TaskQueue} {d : String} :
    conditionalDepSatisfied q Condition.failure d = true ↔
      ∃ dt, lookupTask q d = some dt ∧
        (dt.state = TaskState.failed ∨
          (dt.state = TaskState.completed ∧
            ∃ r, dt.result = some r ∧ r.success = false)) := by
  rw [conditionalDepSatisfied_iff]
  constructor
  · rintro ⟨dt, hlk, hterm, heval⟩
    rw [evaluate_condition_failure_iff] at heval
    refine ⟨dt, hlk, ?_⟩
    rcases heval with h | ⟨hc, hr⟩
    · exact Or.inl h
    · exact Or.inr ⟨hc, hr⟩
  · rintro ⟨dt, hlk, h⟩
    refine ⟨dt, hlk, ?_, ?_⟩
    · rcases h with h | ⟨hc, -⟩
      exacts [Or.inr h, Or.inl hc]
    · rw [evaluate_condition_failure_iff]
      rcases h with h | ⟨hc, hr⟩
      exacts [Or.inl h, Or.inr ⟨hc, hr⟩]

/-- C3: for every task queue (with dict-unique keys), a task with condition
FAILURE is reported by get_ready_tasks_with_conditions iff it is not
in_progress/completed/failed and every dependency is either failed, or
completed with result.success = false; and in general a task is ready iff
its single per-task condition is satisfied by every dependency
individually (conjunction over all dependencies). -/
theorem conditional_ready_correct (q : TaskQueue) (hnd : (q.map Prod.fst).Nodup) :
    (∀ id t, lookupTask q id = some t → t.condition = Condition.failure →
      (id ∈ get_ready_tasks_with_conditions q ↔
        skipState t.state = false ∧
        ∀ d ∈ t.dependencies, ∃ dt, lookupTask q d = some dt ∧
          (dt.state = TaskState.failed ∨
            (dt.state = TaskState.completed ∧
              ∃ r, dt.result = some r ∧ r.success = false)))) ∧
    (∀ id t, lookupTask q id = some t →
      (id ∈ get_ready_tasks_with_conditions q ↔
        skipState t.state = false ∧
        ∀ d ∈ t.dependencies, conditionalDepSatisfied q t.condition d = true)) := by
  have hgen : ∀ id t, lookupTask q id = some t →
      (id ∈ get_ready_tasks_with_conditions q ↔
        skipState t.state = false ∧
        ∀ d ∈ t.dependencies, conditionalDepSatisfied q t.condition d = true) := by
    intro id t hlk
    rw [mem_get_ready_tasks_with_conditions]
    constructor
    · rintro ⟨t', hmem', h1, h2⟩
      have : t' = t := by
        have := (lookupTask_eq_some_iff hnd).2 hmem'
        rw [hlk] at this
        exact (Option.some_inj.1 this).symm
      subst this
      refine ⟨h1, ?_⟩
      have h3 := List.all_eq_true.1 h2
      rw [conditionOf_eq hlk] at h3
      exact h3
    · rintro ⟨h1, h2⟩
      refine ⟨t, (lookupTask_eq_some_iff hnd).1 hlk, h1, ?_⟩
      unfold check_conditional_dependencies_satisfied
      rw [conditionOf_eq hlk]
      exact List.all_eq_true.2 h2
  refine ⟨?_, hgen⟩
  intro id t hlk hc
  rw [hgen id t hlk, hc]
  constructor
  · rintro ⟨h1, h2⟩
    exact ⟨h1, fun d hd => conditionalDep_failure_iff.1 (h2 d hd)⟩
  · rintro ⟨h1, h2⟩
    exact ⟨h1, fun d hd => conditionalDep_failure_iff.2 (h2 d hd)⟩

theorem conditional_ready_correct_witness :
    "C" ∈ get_ready_tasks_with_conditions exQf := by
  have h := (conditional_ready_correct exQf (by decide)).1 "C"
    { state := .pending, dependencies := ["A"], result := none, condition := .failure }
    rfl rfl
  refine h.mpr ⟨rfl, ?_⟩
  intro d hd
  simp only [List.mem_singleton] at hd
  subst hd
  exact ⟨{ state := .completed, dependencies := [], result := some ⟨false, "err"⟩ }, rfl,
    Or.inr ⟨rfl, ⟨false, "err"⟩, rfl, rfl⟩⟩

/-- C4 counterexample: a direct pending → completed transition with no result
is accepted by update_task_state — it does not fail with InvalidTransition. -/
theorem update_task_state_no_fsm_check :
    update_task_state [("A", { state := .pending, dependencies := [], result := none })]
      "A" "completed" none =
    some [("A", { state := .completed, dependencies := [], result := none })] := by
  rfl

/-- C4 (amended): update_task_state fails exactly when the task id is absent
or the state string is not one of the five valid states; it performs no
FSM-successor validation and no missing-result check. -/
theorem update_task_state_validation (q : TaskQueue) (id ns : String)
    (r : Option TaskResult) :
    (update_task_state q id ns r).isSome = true ↔
      hasKey q id = true ∧ (TaskState.ofString ns).isSome = true := by
  unfold update_task_state
  by_cases h : hasKey q id = true
  · cases hs : TaskState.ofString ns <;> simp [h, hs]
  · simp [h]

theorem sameIdSet_self (l : List String) : sameIdSet l l = true := by
  simp [sameIdSet, List.all_eq_true]

theorem validate_ready_state_rejects_ready_state :
    get_ready_tasks qRy = ["A"] ∧ validate_ready_state qRy (get_ready_tasks qRy) = false :=
  ⟨rfl, rfl⟩

/-- C9 (amended): validate_ready_state accepts the evaluator's own output
whenever every reported task is in state "pending"; a reported task in the
transient state "ready" makes it return False instead. -/
theorem validate_ready_state_accepts (q : TaskQueue) (hnd : (q.map Prod.fst).Nodup)
    (hp : ∀ id ∈ get_ready_tasks q,
      ∃ t, lookupTask q id = some t ∧ t.state = TaskState.pending) :
    validate_ready_state q (get_ready_tasks q) = true := by
  unfold validate_ready_state
  rw [Bool.and_eq_true]
  refine ⟨sameIdSet_self _, ?_⟩
  rw [List.all_eq_true]
  intro id hid
  obtain ⟨t, hlk, hpend⟩ := hp id hid
  obtain ⟨t', hmem', hskip, hcheck⟩ := mem_get_ready_tasks.1 hid
  have ht : t' = t := by
    have h2 := (lookupTask_eq_some_iff hnd).2 hmem'
    rw [hlk] at h2
    exact (Option.some_inj.1 h2).symm
  subst ht
  simp [hlk, hpend, hcheck]

theorem validate_ready_state_accepts_witness :
    validate_ready_state exQw (get_ready_tasks exQw) = true :=
  validate_ready_state_accepts exQw (by decide) (by
    intro id hid
    have hr : get_ready_tasks exQw = ["B", "Z"] := rfl
    rw [hr] at hid
    rcases (by simpa using hid : id = "B" ∨ id = "Z") with rfl | rfl
    · exact ⟨_, rfl, rfl⟩
    · exact ⟨_, rfl, rfl⟩)

theorem lookupTask_eq_none_of_not_hasKey {q : TaskQueue} {d : String}
    (h : hasKey q d = false) : lookupTask q d = none := by
  unfold lookupTask
  cases hf : q.find? (fun p => p.1 == d) with
  | none => rfl
  | some p =>
    exfalso
    have hmem := List.mem_of_find?_eq_some hf
    have hp := List.find?_some hf
    have : hasKey q d = true := by
      unfold hasKey
      rw [List.any_eq_true]
      exact ⟨p, hmem, hp⟩
    rw [this] at h
    exact Bool.noConfusion h

/-- C10: a task listing a dependency id that is not a key of the queue is
silently excluded from get_ready_tasks (no error), while
validate_conditional_graph reports the missing dependency as a validation
error. -/
theorem missing_dependency_excluded (q : TaskQueue) (hnd : (q.map Prod.fst).Nodup)
    (id d : String) (t : Task) (hlk : lookupTask q id = some t)
    (hd : d ∈ t.dependencies) (hmiss : hasKey q d = false) :
    id ∉ get_ready_tasks q ∧ (validate_conditional_graph q).valid = false := by
  constructor
  · intro hmem
    obtain ⟨t', hmem', hskip, hcheck⟩ := mem_get_ready_tasks.1 hmem
    have ht : t' = t := by
      have h2 := (lookupTask_eq_some_iff hnd).2 hmem'
      rw [hlk] at h2
      exact (Option.some_inj.1 h2).symm
    subst ht
    obtain ⟨dt, r, hlkd, -⟩ := depSatisfied_iff.1 (check_dependencies_satisfied_iff.1 hcheck d hd)
    rw [lookupTask_eq_none_of_not_hasKey hmiss] at hlkd
    exact Option.noConfusion hlkd
  · show (conditionalGraphErrors q).isEmpty = false
    have hmemq : (id, t) ∈ q := (lookupTask_eq_some_iff hnd).1 hlk
    have hin : s!"Task {id}: dependency {d} not found in task queue" ∈
        conditionalGraphErrors q := by
      unfold conditionalGraphErrors
      rw [List.mem_flatMap]
      refine ⟨(id, t), hmemq, ?_⟩
      exact List.mem_map_of_mem _ (List.mem_filter.2 ⟨hd, by rw [hmiss]; rfl⟩)
    cases hq : conditionalGraphErrors q with
    | nil =>
      rw [hq] at hin
      exact absurd hin (List.not_mem_nil _)
    | cons e es => rfl

theorem missing_dependency_excluded_witness :
    "A" ∉ get_ready_tasks qMiss ∧ (validate_conditional_graph qMiss).valid = false :=
  missing_dependency_excluded qMiss (by decide) "A" "Z"
    { state := .pending, dependencies := ["Z"], result := none } rfl (by decide) rfl

theorem get_blocked_tasks_raises_on_none_result : get_blocked_tasks qNoneRes = none := rfl

theorem blockedDeps_isSome {q : TaskQueue}
    (hq : ∀ p ∈ q, p.2.state = TaskState.completed → p.2.result ≠ none)
    (deps : List String) : (blockedDeps q deps).isSome = true := by
  induction deps with
  | nil => rfl
  | cons d rest ih =>
    unfold blockedDeps
    cases hlk : lookupTask q d with
    | none => simpa using ih
    | some dt =>
      have hmem : (d, dt) ∈ q := by
        unfold lookupTask at hlk
        cases hf : q.find? (fun p => p.1 == d) with
        | none => rw [hf] at hlk; exact Option.noConfusion hlk
        | some p =>
          rw [hf] at hlk
          have hp := List.find?_some hf
          have := List.mem_of_find?_eq_some hf
          obtain ⟨a, b⟩ := p
          simp only [Option.map_some', Option.some_inj] at hlk
          have ha : a = d := by simpa using hp
          subst ha
          rw [hlk] at this
          exact this
      by_cases hs : dt.state = TaskState.completed
      · have hr := hq (d, dt) hmem hs
        cases hres : dt.result with
        | none => exact absurd hres hr
        | some r =>
          by_cases hrs : r.success = true <;> simp [hs, hres, hrs, ih]
      · simp [hs, ih]

theorem get_blocked_tasks_aux_isSome {q : TaskQueue}
    (hq : ∀ p ∈ q, p.2.state = TaskState.completed → p.2.result ≠ none)
    (l : List (String × Task)) : (get_blocked_tasks_aux q l).isSome = true := by
  induction l with
  | nil => rfl
  | cons p rest ih =>
    obtain ⟨id, t⟩ := p
    unfold get_blocked_tasks_aux
    by_cases hs : skipState t.state = true
    · simp [hs, ih]
    · cases hbd : blockedDeps q t.dependencies with
      | none =>
        have := blockedDeps_isSome hq t.dependencies
        rw [hbd] at this
        exact absurd this (by simp)
      | some inc =>
        by_cases hi : inc.isEmpty = true <;> simp [hs, hbd, hi, ih]

/-- C8 (amended): get_blocked_tasks returns normally on every queue in which
no completed task has a missing result, and the unconditional ready check
treats a dependency with a missing result as simply unsatisfied, so
get_ready_tasks excludes its dependents without raising. -/
theorem missing_result_recovered (q : TaskQueue) :
    ((∀ p ∈ q, p.2.state = TaskState.completed → p.2.result ≠ none) →
      (get_blocked_tasks q).isSome = true) ∧
    (∀ id t d dt, (q.map Prod.fst).Nodup → lookupTask q id = some t →
      d ∈ t.dependencies → lookupTask q d = some dt → dt.result = none →
      id ∉ get_ready_tasks q) := by
  constructor
  · intro hq
    exact get_blocked_tasks_aux_isSome hq q
  · intro id t d dt hnd hlk hd hlkd hres hmem
    obtain ⟨t', hmem', hskip, hcheck⟩ := mem_get_ready_tasks.1 hmem
    have ht : t' = t := by
      have h2 := (lookupTask_eq_some_iff hnd).2 hmem'
      rw [hlk] at h2
      exact (Option.some_inj.1 h2).symm
    subst ht
    obtain ⟨dt', r, hlkd', hst', hres', -⟩ :=
      depSatisfied_iff.1 (check_dependencies_satisfied_iff.1 hcheck d hd)
    rw [hlkd] at hlkd'
    rw [(Option.some_inj.1 hlkd').symm, hres] at hres'
    exact Option.noConfusion hres'

theorem missing_result_recovered_witness :
    (get_blocked_tasks qMidFlight).isSome = true ∧ "B" ∉ get_ready_tasks qNoneRes :=
  ⟨(missing_result_recovered qMidFlight).1 (by decide),
   (missing_result_recovered qNoneRes).2 "B"
     { state := .pending, dependencies := ["A"], result := none } "A"
     { state := .completed, dependencies := [], result := none }
     (by decide) rfl (by decide) rfl rfl⟩

theorem lookupTask_mem {q : TaskQueue} {d : String} {dt : Task}
    (hlk : lookupTask q d = some dt) : (d, dt) ∈ q := by
  unfold lookupTask at hlk
  cases hf : q.find? (fun p => p.1 == d) with
  | none => rw [hf] at hlk; exact Option.noConfusion hlk
  | some p =>
    rw [hf] at hlk
    have hp := List.find?_some hf
    have hm := List.mem_of_find?_eq_some hf
    obtain ⟨a, b⟩ := p
    simp only [Option.map_some', Option.some_inj] at hlk
    have ha : a = d := by simpa using hp
    subst ha
    rw [hlk] at hm
    exact hm

theorem replaceQ_keys (q : TaskQueue) (c : String) (tc' : Task) :
    (replaceQ q c tc').map Prod.fst = q.map Prod.fst := by
  unfold replaceQ
  rw [List.map_map]
  apply List.map_congr_left
  intro p _
  by_cases h : p.1 = c <;> simp [h]

theorem mem_replaceQ_ne {q : TaskQueue} {c : String} {tc' : Task} {x : String} {tx : Task}
    (hmem : (x, tx) ∈ replaceQ q c tc') (hx : x ≠ c) : (x, tx) ∈ q := by
  unfold replaceQ at hmem
  obtain ⟨p0, hp0, heq⟩ := List.mem_map.1 hmem
  by_cases h : p0.1 = c
  · rw [if_pos h] at heq
    exact absurd (congrArg Prod.fst heq).symm hx
  · rw [if_neg h] at heq
    rw [heq] at hp0
    exact hp0

theorem mem_incrementalDependents {upd : TaskQueue} {tid x : String} :
    x ∈ incrementalDependents upd tid ↔
      ∃ tx, (x, tx) ∈ upd ∧ x ≠ tid ∧ tid ∈ tx.dependencies ∧
        tx.state = TaskState.pending ∧
        check_dependencies_satisfied upd tx.dependencies = true := by
  unfold incrementalDependents
  simp only [List.mem_map, List.mem_filter, Bool.and_eq_true, decide_eq_true_eq,
    beq_iff_eq, List.contains, List.elem_iff]
  constructor
  · rintro ⟨p, ⟨hp, ⟨⟨h1, h2⟩, h3⟩, h4⟩, rfl⟩
    exact ⟨p.2, hp, h1, h2, h3, h4⟩
  · rintro ⟨tx, hmem, h1, h2, h3, h4⟩
    exact ⟨(x, tx), ⟨hmem, ⟨⟨h1, h2⟩, h3⟩, h4⟩, rfl⟩

theorem mem_get_ready_tasks_incremental {prev upd : TaskQueue} {x : String} :
    x ∈ get_ready_tasks_incremental prev upd ↔
      ∃ p ∈ upd, prevStateOf prev p.1 ≠ p.2.state ∧ p.2.state = TaskState.completed ∧
        x ∈ incrementalDependents upd p.1 := by
  unfold get_ready_tasks_incremental
  simp only [List.mem_flatten, List.mem_map, List.mem_filter, Bool.and_eq_true,
    decide_eq_true_eq, beq_iff_eq]
  constructor
  · rintro ⟨l, ⟨p, ⟨hp, h1, h2⟩, rfl⟩, hx⟩
    exact ⟨p, hp, h1, h2, hx⟩
  · rintro ⟨p, hp, h1, h2, hx⟩
    exact ⟨incrementalDependents upd p.1, ⟨p, ⟨hp, h1, h2⟩, rfl⟩, hx⟩

/-- C5: whenever the after-queue differs from the before-queue by exactly one
task's transition to completed, every task reported by
get_ready_tasks_incremental is ready under full evaluation of the after-queue
and was not ready under full evaluation of the before-queue. -/
theorem get_ready_tasks_incremental_subset (before : TaskQueue) (c : String)
    (tc tc' : Task) (hnd : (before.map Prod.fst).Nodup)
    (hlkc : lookupTask before c = some tc) (hst : tc.state ≠ TaskState.completed)
    (hst' : tc'.state = TaskState.completed) (hdeps : tc'.dependencies = tc.dependencies) :
    ∀ x ∈ get_ready_tasks_incremental before (replaceQ before c tc'),
      x ∈ get_ready_tasks (replaceQ before c tc') ∧ x ∉ get_ready_tasks before := by
  intro x hx
  obtain ⟨p, hp_mem, htrig1, htrig2, hx_in⟩ := mem_get_ready_tasks_incremental.1 hx
  obtain ⟨tx, hmem_after, hxne, hdep_c, hpend, hcheck⟩ := mem_incrementalDependents.1 hx_in
  -- the trigger task must be c, the only entry whose state changed
  have hpid : p.1 = c := by
    by_contra hne
    obtain ⟨x0, t0⟩ := (⟨p.1, p.2⟩ : String × Task)
    have hp_before : (p.1, p.2) ∈ before := mem_replaceQ_ne (by simpa using hp_mem) hne
    have : prevStateOf before p.1 = p.2.state := by
      unfold prevStateOf
      rw [(lookupTask_eq_some_iff hnd).2 hp_before]
    exact htrig1 this
  have hxc : x ≠ c := by rw [← hpid]; exact hxne
  have hdep_c' : c ∈ tx.dependencies := by rw [← hpid]; exact hdep_c
  have hmem_before : (x, tx) ∈ before := mem_replaceQ_ne hmem_after hxc
  constructor
  · exact mem_get_ready_tasks.2 ⟨tx, hmem_after, by rw [hpend]; rfl, hcheck⟩
  · intro hmem_b
    obtain ⟨txb, hmem_b', hskip_b, hcheck_b⟩ := mem_get_ready_tasks.1 hmem_b
    have htxb : txb = tx := by
      have h1 := (lookupTask_eq_some_iff hnd).2 hmem_b'
      have h2 := (lookupTask_eq_some_iff hnd).2 hmem_before
      rw [h1] at h2
      exact Option.some_inj.1 h2
    subst htxb
    obtain ⟨dt, r, hlkd, hstd, -, -⟩ :=
      depSatisfied_iff.1 (check_dependencies_satisfied_iff.1 hcheck_b c hdep_c')
    rw [hlkc] at hlkd
    rw [Option.some_inj.1 hlkd] at hst
    exact hst hstd

theorem get_ready_tasks_incremental_subset_witness :
    "B" ∈ get_ready_tasks (replaceQ beforeW "A" tcAfter) ∧
      "B" ∉ get_ready_tasks beforeW :=
  get_ready_tasks_incremental_subset beforeW "A"
    { state := .in_progress, dependencies := [], result := none } tcAfter
    (by decide) rfl (by decide) rfl rfl "B" (by decide)

/-- C1: on the cyclic graph {A:[B], B:[A]} the sequencer silently returns an
empty (truncated) ordering — it has no cycle detection and no CycleDetected
failure, contrary to the specified behavior. -/
theorem topological_sort_cycle_silent :
    topological_sort [("A", ["B"]), ("B", ["A"])] = [] ∧
    ([("A", ["B"]), ("B", ["A"])] : Graph).length = 2 :=
  ⟨by decide, rfl⟩

/-! ### Generic association-list lemmas -/

theorem alistFind_cons {β : Type} (p : String × β) (rest : List (String × β)) (x : String) :
    alistFind (p :: rest) x = if p.1 = x then some p.2 else alistFind rest x := by
  by_cases h : p.1 = x <;> simp [alistFind, List.find?_cons, h]

theorem alistFind_eq_some_iff {β : Type} {m : List (String × β)}
    (hnd : (m.map Prod.fst).Nodup) {x : String} {v : β} :
    alistFind m x = some v ↔ (x, v) ∈ m := by
  induction m with
  | nil => simp [alistFind]
  | cons p rest ih =>
    obtain ⟨a, b⟩ := p
    rw [alistFind_cons]
    simp only [List.map_cons, List.nodup_cons] at hnd
    by_cases h : a = x
    · subst h
      rw [if_pos rfl]
      simp only [Option.some_inj, List.mem_cons, Prod.mk.injEq]
      constructor
      · rintro rfl
        exact Or.inl ⟨trivial, rfl⟩
      · rintro (⟨-, rfl⟩ | hmem)
        · rfl
        · exact absurd (List.mem_map_of_mem Prod.fst hmem) hnd.1
    · rw [if_neg h, ih hnd.2]
      simp only [List.mem_cons, Prod.mk.injEq]
      constructor
      · exact fun hm => Or.inr hm
      · rintro (⟨rfl, -⟩ | hm)
        · exact absurd rfl h
        · exact hm

theorem alistFind_mem {β : Type} {m : List (String × β)} {x : String} {v : β}
    (h : alistFind m x = some v) : (x, v) ∈ m := by
  unfold alistFind at h
  cases hf : m.find? (fun p => p.1 == x) with
  | none => rw [hf] at h; exact Option.noConfusion h
  | some p =>
    rw [hf] at h
    have hp := List.find?_some hf
    have hm := List.mem_of_find?_eq_some hf
    obtain ⟨a, b⟩ := p
    simp only [Option.map_some', Option.some_inj] at h
    have ha : a = x := by simpa using hp
    subst ha
    rw [h] at hm
    exact hm

theorem alistFind_eq_none_iff {β : Type} {m : List (String × β)} {x : String} :
    alistFind m x = none ↔ ∀ p ∈ m, p.1 ≠ x := by
  unfold alistFind
  rw [Option.map_eq_none', List.find?_eq_none]
  constructor
  · intro h p hp
    have := h p hp
    simpa using this
  · intro h p hp
    simpa using h p hp

theorem alistFind_isSome_of_mem {β : Type} {m : List (String × β)} {x : String} {v : β}
    (h : (x, v) ∈ m) : (alistFind m x).isSome = true := by
  cases hf : alistFind m x with
  | none =>
    exact absurd rfl (alistFind_eq_none_iff.1 hf (x, v) h)
  | some w => rfl

/-- A key-preserving map commutes with association lookup. -/
theorem alistFind_map {β γ : Type} (f : (String × γ) → (String × β))
    (hf : ∀ p, (f p).1 = p.1) (m : List (String × γ)) (x : String) :
    alistFind (m.map f) x = (m.find? (fun p => p.1 == x)).map (fun p => (f p).2) := by
  induction m with
  | nil => rfl
  | cons p rest ih =>
    rw [List.map_cons, alistFind_cons, hf p, List.find?_cons]
    by_cases h : p.1 = x
    · simp [h]
    · have hb : (p.1 == x) = false := beq_eq_false_iff_ne.2 h
      rw [if_neg h, hb, ih]

/-! ### Lemmas about dedupFirst and the in-degree initialisation -/

theorem mem_dedupFirstAux {l : List String} {seen : List String} {x : String} :
    x ∈ dedupFirstAux l seen ↔ x ∈ l ∧ x ∉ seen := by
  induction l generalizing seen with
  | nil => simp [dedupFirstAux]
  | cons d rest ih =>
    unfold dedupFirstAux
    by_cases h : d ∈ seen
    · rw [if_pos (by simpa using h), ih]
      constructor
      · rintro ⟨h1, h2⟩
        exact ⟨List.mem_cons_of_mem d h1, h2⟩
      · rintro ⟨h1, h2⟩
        rcases List.mem_cons.1 h1 with rfl | h1'
        · exact absurd h h2
        · exact ⟨h1', h2⟩
    · rw [if_neg (by simpa using h)]
      constructor
      · intro hx
        rcases List.mem_cons.1 hx with rfl | hx'
        · exact ⟨List.mem_cons_self x rest, h⟩
        · obtain ⟨h1, h2⟩ := ih.1 hx'
          exact ⟨List.mem_cons_of_mem d h1, fun hs => h2 (List.mem_cons_of_mem d hs)⟩
      · rintro ⟨h1, h2⟩
        rcases List.mem_cons.1 h1 with rfl | h1'
        · exact List.mem_cons_self x _
        · by_cases hxd : x = d
          · subst hxd
            exact List.mem_cons_self x _
          · refine List.mem_cons_of_mem d (ih.2 ⟨h1', fun hs => ?_⟩)
            rcases List.mem_cons.1 hs with h' | h'
            · exact hxd h'
            · exact h2 h'

theorem nodup_dedupFirstAux (l : List String) (seen : List String) :
    (dedupFirstAux l seen).Nodup := by
  induction l generalizing seen with
  | nil => exact List.nodup_nil
  | cons d rest ih =>
    unfold dedupFirstAux
    by_cases h : d ∈ seen
    · rw [if_pos (by simpa using h)]
      exact ih _
    · rw [if_neg (by simpa using h)]
      refine List.nodup_cons.2 ⟨?_, ih _⟩
      intro hd
      exact (mem_dedupFirstAux.1 hd).2 (List.mem_cons_self d _)

theorem mem_dedupFirst {l : List String} {x : String} :
    x ∈ dedupFirst l ↔ x ∈ l := by
  unfold dedupFirst
  rw [mem_dedupFirstAux]
  simp

theorem nodup_dedupFirst (l : List String) : (dedupFirst l).Nodup :=
  nodup_dedupFirstAux l []

theorem isKey_iff {g : Graph} {x : String} :
    isKey g x = true ↔ x ∈ g.map Prod.fst := by
  unfold isKey
  rw [List.any_eq_true]
  simp only [beq_iff_eq, List.mem_map]

theorem nodeList_eq (g : Graph) :
    nodeList g = g.map Prod.fst ++
      dedupFirst ((g.flatMap (·.2)).filter (fun d => !isKey g d)) := by
  unfold nodeList initInDegree
  rw [List.map_append, List.map_map, List.map_map]
  have h1 : List.map (Prod.fst ∘ fun p => (p.1, (p.2.length : Int))) g =
      List.map Prod.fst g := List.map_congr_left (fun p _ => rfl)
  have h2 : List.map (Prod.fst ∘ fun d => (d, (0 : Int)))
      (dedupFirst ((g.flatMap (·.2)).filter (fun d => !isKey g d))) =
      dedupFirst ((g.flatMap (·.2)).filter (fun d => !isKey g d)) := by
    rw [show (Prod.fst ∘ fun d => (d, (0 : Int))) = id from rfl, List.map_id]
  rw [h1, h2]

theorem mem_nodeList {g : Graph} {x : String} :
    x ∈ nodeList g ↔ x ∈ g.map Prod.fst ∨ ∃ p ∈ g, x ∈ p.2 := by
  rw [nodeList_eq, List.mem_append, mem_dedupFirst, List.mem_filter, List.mem_flatMap]
  constructor
  · rintro (h | ⟨h1, -⟩)
    · exact Or.inl h
    · exact Or.inr h1
  · rintro (h | h1)
    · exact Or.inl h
    · by_cases hk : x ∈ g.map Prod.fst
      · exact Or.inl hk
      · refine Or.inr ⟨h1, ?_⟩
        rw [Bool.not_eq_true', ← Bool.not_eq_true]
        intro hkk
        exact hk (isKey_iff.1 hkk)

theorem nodup_nodeList {g : Graph} (hk : (g.map Prod.fst).Nodup) :
    (nodeList g).Nodup := by
  rw [nodeList_eq, List.nodup_append]
  refine ⟨hk, nodup_dedupFirst _, ?_⟩
  intro x hx hx'
  have := (List.mem_filter.1 (mem_dedupFirst.1 hx')).2
  rw [Bool.not_eq_true'] at this
  exact absurd (isKey_iff.2 hx) (by rw [this]; exact Bool.noConfusion)

theorem keys_subset_nodeList {g : Graph} {x : String} (h : x ∈ g.map Prod.fst) :
    x ∈ nodeList g :=
  mem_nodeList.2 (Or.inl h)

theorem deps_subset_nodeList {g : Graph} {p : String × List String} {d : String}
    (hp : p ∈ g) (hd : d ∈ p.2) : d ∈ nodeList g :=
  mem_nodeList.2 (Or.inr ⟨p, hp, hd⟩)

theorem getDeps_eq_of_mem {g : Graph} (hk : (g.map Prod.fst).Nodup)
    {x : String} {ds : List String} (h : (x, ds) ∈ g) : getDeps g x = ds := by
  unfold getDeps
  rw [show ((g.find? (fun p => p.1 == x)).map (·.2)) = alistFind g x from rfl,
    (alistFind_eq_some_iff hk).2 h]
  rfl

theorem getDeps_of_not_key {g : Graph} {x : String} (h : x ∉ g.map Prod.fst) :
    getDeps g x = [] := by
  unfold getDeps
  rw [show ((g.find? (fun p => p.1 == x)).map (·.2)) = alistFind g x from rfl]
  rw [alistFind_eq_none_iff.2 (fun p hp he =>
    h (by rw [← he]; exact List.mem_map_of_mem Prod.fst hp))]
  rfl

theorem mem_getDeps_nodeList {g : Graph} {x d : String} (h : d ∈ getDeps g x) :
    d ∈ nodeList g := by
  unfold getDeps at h
  cases hf : alistFind g x with
  | none =>
    rw [show ((g.find? (fun p => p.1 == x)).map (·.2)) = alistFind g x from rfl, hf] at h
    exact absurd h (List.not_mem_nil d)
  | some ds =>
    rw [show ((g.find? (fun p => p.1 == x)).map (·.2)) = alistFind g x from rfl, hf] at h
    exact deps_subset_nodeList (alistFind_mem hf) h

theorem mem_getDeps_isKey {g : Graph} {x d : String} (h : d ∈ getDeps g x) :
    x ∈ g.map Prod.fst := by
  by_contra hk
  rw [getDeps_of_not_key hk] at h
  exact absurd h (List.not_mem_nil d)

theorem alistFind_append {β : Type} (m1 m2 : List (String × β)) (x : String) :
    alistFind (m1 ++ m2) x = (alistFind m1 x).or (alistFind m2 x) := by
  unfold alistFind
  rw [List.find?_append]
  cases m1.find? (fun p => p.1 == x) <;> simp

theorem degGet_initInDegree {g : Graph} (hk : (g.map Prod.fst).Nodup) (x : String) :
    degGet (initInDegree g) x =
      if x ∈ g.map Prod.fst then ((getDeps g x).length : Int) else 0 := by
  have hbase : alistFind (g.map (fun p => (p.1, (p.2.length : Int)))) x =
      (alistFind g x).map (fun ds => (ds.length : Int)) := by
    rw [alistFind_map (fun p => (p.1, (p.2.length : Int))) (fun p => rfl) g x]
    unfold alistFind
    rw [Option.map_map]
    rfl
  have h0 : degGet (initInDegree g) x =
      ((alistFind (g.map (fun p => (p.1, (p.2.length : Int)))) x).or
        (alistFind ((dedupFirst ((g.flatMap (·.2)).filter
          (fun d => !isKey g d))).map (fun d => (d, (0 : Int)))) x)).getD 0 := by
    show (alistFind (initInDegree g) x).getD 0 = _
    rw [show initInDegree g = g.map (fun p => (p.1, (p.2.length : Int))) ++
      (dedupFirst ((g.flatMap (·.2)).filter (fun d => !isKey g d))).map
        (fun d => (d, (0 : Int))) from rfl]
    rw [alistFind_append]
  by_cases hkx : x ∈ g.map Prod.fst
  · rw [if_pos hkx]
    obtain ⟨p, hp, hpx⟩ := List.mem_map.1 hkx
    obtain ⟨a, ds⟩ := p
    simp only at hpx
    subst hpx
    have hfind : alistFind g a = some ds := (alistFind_eq_some_iff hk).2 hp
    have hdeps : getDeps g a = ds := by
      unfold getDeps
      rw [show ((g.find? (fun q => q.1 == a)).map (·.2)) = alistFind g a from rfl, hfind]
      rfl
    rw [h0, hbase, hfind, hdeps]
    rfl
  · rw [if_neg hkx]
    have hnone : alistFind g x = none :=
      alistFind_eq_none_iff.2 (fun p hp he =>
        hkx (by rw [← he]; exact List.mem_map_of_mem Prod.fst hp))
    rw [h0, hbase, hnone]
    simp only [Option.map_none', Option.none_or]
    cases hf : alistFind ((dedupFirst ((g.flatMap (·.2)).filter
        (fun d => !isKey g d))).map (fun d => (d, (0 : Int)))) x with
    | none => rfl
    | some v =>
      obtain ⟨d, -, hdv⟩ := List.mem_map.1 (alistFind_mem hf)
      have hv : v = 0 := ((Prod.ext_iff.1 hdv).2).symm
      rw [hv]
      rfl

/-! ### Lemmas about degree updates and the shared decStep loop -/

theorem degGet_cons (p : String × Int) (rest : List (String × Int)) (x : String) :
    degGet (p :: rest) x = if p.1 = x then p.2 else degGet rest x := by
  by_cases h : p.1 = x <;> simp [degGet, List.find?_cons, h]

theorem degSet_cons (p : String × Int) (rest : List (String × Int)) (k : String) (v : Int) :
    degSet (p :: rest) k v = (if p.1 == k then (p.1, v) else p) :: degSet rest k v := rfl

theorem degSet_keys (m : List (String × Int)) (k : String) (v : Int) :
    (degSet m k v).map Prod.fst = m.map Prod.fst := by
  unfold degSet
  rw [List.map_map]
  apply List.map_congr_left
  intro p _
  by_cases h : p.1 = k <;> simp [h]

theorem degGet_degSet_ne {m : List (String × Int)} {k x : String} (hxk : x ≠ k) (v : Int) :
    degGet (degSet m k v) x = degGet m x := by
  induction m with
  | nil => rfl
  | cons p rest ih =>
    rw [degSet_cons]
    by_cases hpk : p.1 = k
    · rw [show (if p.1 == k then (p.1, v) else p) = (p.1, v) from by simp [hpk]]
      rw [degGet_cons, degGet_cons]
      have hne : ¬ p.1 = x := by
        rw [hpk]
        exact fun he => hxk he.symm
      rw [if_neg hne, if_neg hne, ih]
    · rw [show (if p.1 == k then (p.1, v) else p) = p from by simp [hpk]]
      rw [degGet_cons, degGet_cons]
      by_cases hpx : p.1 = x
      · rw [if_pos hpx, if_pos hpx]
      · rw [if_neg hpx, if_neg hpx, ih]

theorem degGet_degSet_self {m : List (String × Int)} {k : String} (v : Int) :
    k ∈ m.map Prod.fst → degGet (degSet m k v) k = v := by
  induction m with
  | nil => intro hk; simp at hk
  | cons p rest ih =>
    intro hk
    rw [degSet_cons]
    by_cases hpk : p.1 = k
    · rw [show (if p.1 == k then (p.1, v) else p) = (p.1, v) from by simp [hpk]]
      rw [degGet_cons, if_pos hpk]
    · rw [show (if p.1 == k then (p.1, v) else p) = p from by simp [hpk]]
      rw [degGet_cons, if_neg hpk]
      apply ih
      simp only [List.map_cons, List.mem_cons] at hk
      rcases hk with h | h
      · exact absurd h.symm hpk
      · exact h

theorem decStep_fold (node : String) (l : Graph) :
    ∀ (indeg : List (String × Int)) (q : List String),
    (l.map Prod.fst).Nodup → (∀ p ∈ l, p.1 ∈ indeg.map Prod.fst) →
    ((decStep l node (indeg, q)).1.map Prod.fst = indeg.map Prod.fst) ∧
    (∀ x, degGet (decStep l node (indeg, q)).1 x =
      if ∃ p ∈ l, p.1 = x ∧ node ∈ p.2 then degGet indeg x - 1 else degGet indeg x) ∧
    (decStep l node (indeg, q)).2 =
      q ++ (l.filter (fun p => p.2.contains node && (degGet indeg p.1 == 1))).map Prod.fst := by
  induction l with
  | nil =>
    intro indeg q _ _
    refine ⟨rfl, ?_, by simp [decStep]⟩
    intro x
    rw [if_neg (by rintro ⟨p, hp, -⟩; exact List.not_mem_nil p hp)]
    rfl
  | cons p l' ih =>
    intro indeg q hnd hkeys
    simp only [List.map_cons, List.nodup_cons] at hnd
    have hstep : decStep (p :: l') node (indeg, q) =
        decStep l' node (if p.2.contains node then
          (degSet indeg p.1 (degGet indeg p.1 - 1),
            if (degGet indeg p.1 - 1) == 0 then q ++ [p.1] else q)
          else (indeg, q)) := by
      unfold decStep
      rw [List.foldl_cons]
    by_cases hc : p.2.contains node = true
    · rw [hstep, if_pos hc]
      have hp1 : p.1 ∈ indeg.map Prod.fst := hkeys p (List.mem_cons_self p l')
      obtain ⟨ihk, ihdeg, ihsnd⟩ := ih (degSet indeg p.1 (degGet indeg p.1 - 1))
        (if (degGet indeg p.1 - 1) == 0 then q ++ [p.1] else q) hnd.2
        (fun p' hp' => by
          rw [degSet_keys]
          exact hkeys p' (List.mem_cons_of_mem p hp'))
      refine ⟨by rw [ihk, degSet_keys], ?_, ?_⟩
      · intro x
        rw [ihdeg x]
        by_cases hx : x = p.1
        · have hnol' : ¬ ∃ p' ∈ l', p'.1 = x ∧ node ∈ p'.2 := by
            rintro ⟨p', hp', hfst, -⟩
            exact hnd.1 (by rw [← hx, ← hfst]; exact List.mem_map_of_mem Prod.fst hp')
          rw [if_neg hnol',
            if_pos ⟨p, List.mem_cons_self p l', hx.symm, (by simpa using hc)⟩, hx,
            degGet_degSet_self _ hp1]
        · rw [degGet_degSet_ne hx]
          by_cases hex : ∃ p' ∈ l', p'.1 = x ∧ node ∈ p'.2
          · rw [if_pos hex, if_pos (by
              obtain ⟨p', hp', hfst, hn⟩ := hex
              exact ⟨p', List.mem_cons_of_mem p hp', hfst, hn⟩)]
          · rw [if_neg hex, if_neg (by
              rintro ⟨p', hp', hfst, hn⟩
              rcases List.mem_cons.1 hp' with rfl | hp''
              · exact hx hfst.symm
              · exact hex ⟨p', hp'', hfst, hn⟩)]
      · rw [ihsnd]
        have hfc : l'.filter (fun p' => p'.2.contains node &&
            (degGet (degSet indeg p.1 (degGet indeg p.1 - 1)) p'.1 == 1)) =
            l'.filter (fun p' => p'.2.contains node && (degGet indeg p'.1 == 1)) := by
          apply List.filter_congr
          intro p' hp'
          have hne : p'.1 ≠ p.1 := fun he =>
            hnd.1 (by rw [← he]; exact List.mem_map_of_mem Prod.fst hp')
          rw [degGet_degSet_ne hne]
        rw [hfc]
        rw [List.filter_cons]
        by_cases hdeg : (degGet indeg p.1 - 1) == 0
        · have hdeg1 : (degGet indeg p.1 == 1) = true := by
            rw [beq_iff_eq]
            have := beq_iff_eq.1 hdeg
            omega
          rw [if_pos hdeg, if_pos (by rw [hc, hdeg1]; rfl)]
          simp
        · have hdeg1 : (degGet indeg p.1 == 1) = false := by
            rw [beq_eq_false_iff_ne]
            intro he
            exact hdeg (by rw [beq_iff_eq]; omega)
          rw [if_neg hdeg, if_neg (by rw [hc, hdeg1]; simp)]
    · rw [hstep, if_neg hc]
      obtain ⟨ihk, ihdeg, ihsnd⟩ := ih indeg q hnd.2
        (fun p' hp' => hkeys p' (List.mem_cons_of_mem p hp'))
      refine ⟨ihk, ?_, ?_⟩
      · intro x
        rw [ihdeg x]
        by_cases hex : ∃ p' ∈ l', p'.1 = x ∧ node ∈ p'.2
        · rw [if_pos hex, if_pos (by
            obtain ⟨p', hp', hfst, hn⟩ := hex
            exact ⟨p', List.mem_cons_of_mem p hp', hfst, hn⟩)]
        · rw [if_neg hex, if_neg (by
            rintro ⟨p', hp', hfst, hn⟩
            rcases List.mem_cons.1 hp' with rfl | hp''
            · exact hc (by simpa using hn)
            · exact hex ⟨p', hp'', hfst, hn⟩)]
      · have hcf : p.2.contains node = false := by
          cases hcc : p.2.contains node
          · rfl
          · exact absurd hcc hc
        rw [ihsnd, List.filter_cons]
        rw [if_neg (by rw [hcf]; simp)]

/-! ### Counting and ordering lemmas for the loop invariants -/

theorem contains_eq_decide_mem (l : List String) (d : String) :
    l.contains d = decide (d ∈ l) := by
  rw [show l.contains d = l.elem d from rfl, List.elem_eq_mem]

theorem contains_of_mem {l : List String} {d : String} (h : d ∈ l) :
    l.contains d = true := by
  rw [contains_eq_decide_mem]
  exact decide_eq_true h

theorem not_contains_of_not_mem {l : List String} {d : String} (h : d ∉ l) :
    (!l.contains d) = true := by
  rw [contains_eq_decide_mem]
  simp [h]

theorem mem_of_contains {l : List String} {d : String} (h : l.contains d = true) :
    d ∈ l := by
  rw [contains_eq_decide_mem] at h
  exact of_decide_eq_true h

theorem filter_not_contains_nil (deps : List String) :
    deps.filter (fun d => !List.contains [] d) = deps := by
  rw [show (fun d => !List.contains [] d) = (fun _ => true) from rfl]
  exact List.filter_true deps

theorem filter_snoc_length {deps : List String} (hnd : deps.Nodup)
    {node : String} {r : List String} (hin : node ∈ deps) (hnr : node ∉ r) :
    (deps.filter (fun d => !r.contains d)).length =
      (deps.filter (fun d => !(r ++ [node]).contains d)).length + 1 := by
  have hcong : deps.filter (fun d => !(r ++ [node]).contains d) =
      (deps.filter (fun d => !r.contains d)).filter (fun d => d != node) := by
    rw [List.filter_filter]
    apply List.filter_congr
    intro d _
    rw [contains_eq_decide_mem, contains_eq_decide_mem]
    by_cases h1 : d = node <;> by_cases h2 : d ∈ r <;>
      simp [h1, h2, List.mem_append]
  have hm_nodup : (deps.filter (fun d => !r.contains d)).Nodup := hnd.filter _
  have hmem : node ∈ deps.filter (fun d => !r.contains d) :=
    List.mem_filter.2 ⟨hin, not_contains_of_not_mem hnr⟩
  rw [hcong, ← hm_nodup.erase_eq_filter node, List.length_erase_add_one hmem]

theorem filter_snoc_of_not_mem {deps : List String} {r : List String} {node : String}
    (hnode : node ∉ deps) :
    deps.filter (fun d => !(r ++ [node]).contains d) =
      deps.filter (fun d => !r.contains d) := by
  apply List.filter_congr
  intro d hd
  have hne : d ≠ node := fun he => hnode (he ▸ hd)
  rw [contains_eq_decide_mem, contains_eq_decide_mem]
  by_cases h2 : d ∈ r <;> simp [hne, h2, List.mem_append]

theorem eq_singleton_of_all_eq {l : List String} {a : String} (hnd : l.Nodup)
    (hne : l ≠ []) (hall : ∀ e ∈ l, e = a) : l = [a] := by
  cases l with
  | nil => exact absurd rfl hne
  | cons e rest =>
    have he : e = a := hall e (List.mem_cons_self e rest)
    subst he
    cases rest with
    | nil => rfl
    | cons f rest' =>
      have hf : f = e := hall f (List.mem_cons_of_mem e (List.mem_cons_self f rest'))
      subst hf
      exact absurd (List.mem_cons_self f rest') (List.nodup_cons.1 hnd).1

theorem depClosedOrder_snoc {g : Graph} {x : String} :
    ∀ {res acc : List String}, depClosedOrder g acc res →
      (∀ d ∈ getDeps g x, d ∈ acc ++ res) → depClosedOrder g acc (res ++ [x]) := by
  intro res
  induction res with
  | nil =>
    intro acc _ hx
    refine ⟨fun d hd => ?_, trivial⟩
    have := hx d hd
    rwa [List.append_nil] at this
  | cons y res' ih =>
    intro acc h hx
    refine ⟨h.1, ih h.2 (fun d hd => ?_)⟩
    rw [List.append_assoc, List.singleton_append]
    exact hx d hd

theorem depClosedOrder_indexOf {g : Graph} :
    ∀ {res acc : List String}, depClosedOrder g acc res → (acc ++ res).Nodup →
      ∀ x ∈ res, ∀ d ∈ getDeps g x,
        d ∈ acc ∨ (d ∈ res ∧ res.indexOf d < res.indexOf x) := by
  intro res
  induction res with
  | nil =>
    intro acc _ _ x hx
    exact absurd hx (List.not_mem_nil x)
  | cons y res' ih =>
    intro acc h hnd x hx d hd
    have hnd' : ((acc ++ [y]) ++ res').Nodup := by
      rwa [List.append_assoc, List.singleton_append]
    have hynotres' : y ∉ res' := by
      have := (List.nodup_append.1 hnd).2.1
      exact (List.nodup_cons.1 this).1
    rcases List.mem_cons.1 hx with rfl | hx'
    · exact Or.inl (h.1 d hd)
    · have hxy : x ≠ y := fun he => hynotres' (he ▸ hx')
      rcases ih h.2 hnd' x hx' d hd with hacc | ⟨hdres', hidx⟩
      · rcases List.mem_append.1 hacc with h1 | h2
        · exact Or.inl h1
        · have hdy : d = y := by simpa using h2
          subst hdy
          refine Or.inr ⟨List.mem_cons_self d res', ?_⟩
          rw [List.indexOf_cons_self, List.indexOf_cons_ne res' (fun he => hxy he.symm)]
          exact Nat.succ_pos _
      · have hdy : d ≠ y := fun he => hynotres' (he ▸ hdres')
        refine Or.inr ⟨List.mem_cons_of_mem y hdres', ?_⟩
        rw [List.indexOf_cons_ne res' (fun he => hdy he.symm),
          List.indexOf_cons_ne res' (fun he => hxy he.symm)]
        exact Nat.succ_lt_succ hidx

theorem lastPosAux_of_not_mem {x : String} :
    ∀ {l : List String} (i acc : Nat), x ∉ l → lastPosAux x l i acc = acc := by
  intro l
  induction l with
  | nil => intro i acc _; rfl
  | cons a rest ih =>
    intro i acc hx
    have ha : ¬ a = x := fun he => hx (by rw [he]; exact List.mem_cons_self x rest)
    show lastPosAux x rest (i + 1) (if a == x then i else acc) = acc
    rw [show (if a == x then i else acc) = acc from by simp [ha]]
    exact ih _ _ (fun hm => hx (List.mem_cons_of_mem a hm))

theorem lastPosAux_of_mem {x : String} :
    ∀ {l : List String}, l.Nodup → x ∈ l → ∀ (i acc : Nat),
      lastPosAux x l i acc = i + l.indexOf x := by
  intro l
  induction l with
  | nil => intro _ hm; exact absurd hm (List.not_mem_nil x)
  | cons a rest ih =>
    intro hnd hm i acc
    by_cases ha : a = x
    · subst ha
      show lastPosAux a rest (i + 1) (if a == a then i else acc) = i + (a :: rest).indexOf a
      rw [show (if a == a then i else acc) = i from by simp,
        lastPosAux_of_not_mem _ _ (List.nodup_cons.1 hnd).1, List.indexOf_cons_self]
      omega
    · have hm' : x ∈ rest := by
        rcases List.mem_cons.1 hm with he | hm'
        · exact absurd he.symm ha
        · exact hm'
      show lastPosAux x rest (i + 1) (if a == x then i else acc) = i + (a :: rest).indexOf x
      rw [show (if a == x then i else acc) = acc from by simp [ha],
        ih (List.nodup_cons.1 hnd).2 hm' (i + 1) acc,
        List.indexOf_cons_ne rest ha]
      omega

theorem lastPos_eq_indexOf {l : List String} (hnd : l.Nodup) {x : String} (hm : x ∈ l) :
    lastPos l x = l.indexOf x := by
  unfold lastPos
  rw [lastPosAux_of_mem hnd hm 0 0]
  omega

theorem inAllNodes_iff {g : Graph} {x : String} :
    inAllNodes g x = true ↔ x ∈ nodeList g := by
  unfold inAllNodes
  rw [List.any_eq_true, mem_nodeList]
  constructor
  · rintro ⟨p, hp, hcond⟩
    rcases (by simpa [contains_eq_decide_mem] using hcond : p.1 = x ∨ x ∈ p.2) with h | h
    · exact Or.inl (by rw [← h]; exact List.mem_map_of_mem Prod.fst hp)
    · exact Or.inr ⟨p, hp, h⟩
  · rintro (h | ⟨p, hp, hx⟩)
    · obtain ⟨p, hp, hpx⟩ := List.mem_map.1 h
      exact ⟨p, hp, by simp [hpx]⟩
    · refine ⟨p, hp, ?_⟩
      simp only [contains_eq_decide_mem, Bool.or_eq_true, beq_iff_eq, decide_eq_true_eq]
      exact Or.inr hx

/-! ### The Kahn loop invariant -/

theorem getDeps_entry {g : Graph} (hk : (g.map Prod.fst).Nodup)
    {p : String × List String} (hp : p ∈ g) : getDeps g p.1 = p.2 :=
  getDeps_eq_of_mem hk (by rw [show (p.1, p.2) = p from rfl]; exact hp)

theorem getDeps_nodup {g : Graph} (hk : (g.map Prod.fst).Nodup)
    (hd : ∀ p ∈ g, p.2.Nodup) (x : String) : (getDeps g x).Nodup := by
  by_cases hkx : x ∈ g.map Prod.fst
  · obtain ⟨p, hp, hpx⟩ := List.mem_map.1 hkx
    rw [← hpx, getDeps_entry hk hp]
    exact hd p hp
  · rw [getDeps_of_not_key hkx]
    exact List.nodup_nil

theorem mem_seed_iff {g : Graph} (hk : (g.map Prod.fst).Nodup) {x : String} :
    x ∈ ((initInDegree g).filter (fun p => p.2 == 0)).map Prod.fst ↔
      x ∈ nodeList g ∧ degGet (initInDegree g) x = 0 := by
  have hknodes : ((initInDegree g).map Prod.fst).Nodup := nodup_nodeList hk
  constructor
  · intro hx
    obtain ⟨p, hpf, hpx⟩ := List.mem_map.1 hx
    obtain ⟨hp, h0⟩ := List.mem_filter.1 hpf
    refine ⟨by rw [← hpx]; exact List.mem_map_of_mem Prod.fst hp, ?_⟩
    have : degGet (initInDegree g) p.1 = p.2 := by
      show (alistFind (initInDegree g) p.1).getD 0 = p.2
      rw [(alistFind_eq_some_iff hknodes).2 (by rw [show (p.1, p.2) = p from rfl]; exact hp)]
      rfl
    rw [← hpx, this]
    exact beq_iff_eq.1 h0
  · rintro ⟨hnl, h0⟩
    obtain ⟨p, hp, hpx⟩ := List.mem_map.1 hnl
    have hval : degGet (initInDegree g) p.1 = p.2 := by
      show (alistFind (initInDegree g) p.1).getD 0 = p.2
      rw [(alistFind_eq_some_iff hknodes).2 (by rw [show (p.1, p.2) = p from rfl]; exact hp)]
      rfl
    have hp2 : p.2 = 0 := by
      rw [← hval, hpx]
      exact h0
    refine List.mem_map.2 ⟨p, List.mem_filter.2 ⟨hp, beq_iff_eq.2 hp2⟩, hpx⟩

theorem kahnInv_init {g : Graph} (hk : (g.map Prod.fst).Nodup) :
    KahnInv g (initInDegree g)
      (((initInDegree g).filter (fun p => p.2 == 0)).map Prod.fst) [] := by
  have hknodes : ((initInDegree g).map Prod.fst).Nodup := nodup_nodeList hk
  refine ⟨rfl, ?_, ?_, ?_, trivial⟩
  · rw [List.nil_append]
    exact List.Nodup.sublist ((List.filter_sublist _).map Prod.fst) hknodes
  · intro x
    rw [List.nil_append]
    constructor
    · intro hx
      obtain ⟨hnl, h0⟩ := (mem_seed_iff hk).1 hx
      refine ⟨hnl, ?_⟩
      intro d hd
      exfalso
      rw [degGet_initInDegree hk x] at h0
      by_cases hkx : x ∈ g.map Prod.fst
      · rw [if_pos hkx] at h0
        have hlen : (getDeps g x).length = 0 := by exact_mod_cast h0
        rw [List.length_eq_zero.1 hlen] at hd
        exact List.not_mem_nil d hd
      · rw [getDeps_of_not_key hkx] at hd
        exact List.not_mem_nil d hd
    · rintro ⟨hnl, hdeps⟩
      have hdepsnil : getDeps g x = [] := by
        rw [List.eq_nil_iff_forall_not_mem]
        exact fun d hd => List.not_mem_nil d (hdeps d hd)
      refine (mem_seed_iff hk).2 ⟨hnl, ?_⟩
      rw [degGet_initInDegree hk x]
      by_cases hkx : x ∈ g.map Prod.fst
      · rw [if_pos hkx, hdepsnil]
        rfl
      · rw [if_neg hkx]
  · intro x hx
    rw [filter_not_contains_nil, degGet_initInDegree hk x]
    by_cases hkx : x ∈ g.map Prod.fst
    · rw [if_pos hkx]
    · rw [if_neg hkx, getDeps_of_not_key hkx]
      rfl

theorem kahnInv_step {g : Graph} (hk : (g.map Prod.fst).Nodup)
    (hd : ∀ p ∈ g, p.2.Nodup) {indeg : List (String × Int)} {node : String}
    {rest result : List String} (inv : KahnInv g indeg (node :: rest) result) :
    KahnInv g (decStep g node (indeg, rest)).1 (decStep g node (indeg, rest)).2
      (result ++ [node]) := by
  obtain ⟨hkeys_eq, hnodup, hclosed, hdeg, hordered⟩ := inv
  have hkeys_sub : ∀ p ∈ g, p.1 ∈ indeg.map Prod.fst := fun p hp => by
    rw [hkeys_eq]
    exact keys_subset_nodeList (List.mem_map_of_mem Prod.fst hp)
  obtain ⟨hK, hdg, hsnd⟩ := decStep_fold node g indeg rest hk hkeys_sub
  have hnode_mem : node ∈ result ++ (node :: rest) :=
    List.mem_append_right _ (List.mem_cons_self node rest)
  obtain ⟨hnodeNL, hnodeDeps⟩ := (hclosed node).1 hnode_mem
  have hnode_not_result : node ∉ result := by
    intro hr
    obtain ⟨-, -, hdisj⟩ := List.nodup_append.1 hnodup
    exact hdisj hr (List.mem_cons_self node rest)
  have hmem_newly : ∀ x,
      x ∈ (g.filter (fun p => p.2.contains node && (degGet indeg p.1 == 1))).map Prod.fst ↔
      x ∈ g.map Prod.fst ∧ node ∈ getDeps g x ∧ degGet indeg x = 1 := by
    intro x
    simp only [List.mem_map, List.mem_filter, Bool.and_eq_true, beq_iff_eq]
    constructor
    · rintro ⟨p, ⟨hp, hcont, hdeg1⟩, rfl⟩
      refine ⟨⟨p, hp, rfl⟩, ?_, hdeg1⟩
      rw [getDeps_entry hk hp]
      exact mem_of_contains hcont
    · rintro ⟨⟨p, hp, hpx⟩, hnd_dep, hdeg1⟩
      refine ⟨p, ⟨hp, ?_, ?_⟩, hpx⟩
      · apply contains_of_mem
        rw [← getDeps_entry hk hp, hpx]
        exact hnd_dep
      · rw [hpx]
        exact hdeg1
  have hnew_not_old : ∀ x, x ∈ g.map Prod.fst → degGet indeg x = 1 →
      x ∉ result ++ (node :: rest) := by
    intro x hkey hdeg1 hmem
    obtain ⟨hxNL, hxdeps⟩ := (hclosed x).1 hmem
    have heq := hdeg x hxNL
    rw [hdeg1] at heq
    have hfilter : (getDeps g x).filter (fun d => !result.contains d) = [] := by
      rw [List.filter_eq_nil_iff]
      intro d hdd h
      rw [Bool.not_eq_true'] at h
      rw [contains_of_mem (hxdeps d hdd)] at h
      exact Bool.noConfusion h
    rw [hfilter] at heq
    simp at heq
  have hre : ∀ (n : List String),
      (result ++ [node]) ++ (rest ++ n) = (result ++ node :: rest) ++ n := by
    intro n
    simp [List.append_assoc]
  constructor
  · rw [hK, hkeys_eq]
  · rw [hsnd, hre]
    rw [List.nodup_append]
    refine ⟨hnodup, List.Nodup.sublist ((List.filter_sublist _).map Prod.fst) hk, ?_⟩
    intro a ha ha'
    obtain ⟨hkey, -, hdeg1⟩ := (hmem_newly a).1 ha'
    exact hnew_not_old a hkey hdeg1 ha
  · intro x
    rw [hsnd, hre]
    constructor
    · intro hx
      rcases List.mem_append.1 hx with hold | hnew
      · obtain ⟨hNL, hsub⟩ := (hclosed x).1 hold
        exact ⟨hNL, fun d hdd => List.mem_append_left _ (hsub d hdd)⟩
      · obtain ⟨hkey, hndep, hdeg1⟩ := (hmem_newly x).1 hnew
        refine ⟨keys_subset_nodeList hkey, ?_⟩
        have hxNL := keys_subset_nodeList hkey
        have hdeq := hdeg x hxNL
        rw [hdeg1] at hdeq
        have hlen1 : ((getDeps g x).filter (fun d => !result.contains d)).length = 1 := by
          exact_mod_cast hdeq.symm
        obtain ⟨c, hc⟩ := List.length_eq_one.1 hlen1
        have hnodemem : node ∈ (getDeps g x).filter (fun d => !result.contains d) :=
          List.mem_filter.2 ⟨hndep, not_contains_of_not_mem hnode_not_result⟩
        have hcnode : c = node := by
          rw [hc] at hnodemem
          exact (by simpa using hnodemem : node = c).symm
        intro d hdd
        by_cases hdr : d ∈ result
        · exact List.mem_append_left _ hdr
        · have hdm : d ∈ (getDeps g x).filter (fun d => !result.contains d) :=
            List.mem_filter.2 ⟨hdd, not_contains_of_not_mem hdr⟩
          rw [hc] at hdm
          have hdc : d = c := by simpa using hdm
          rw [hdc, hcnode]
          exact List.mem_append_right _ (List.mem_singleton.2 rfl)
    · rintro ⟨hNL, hsub⟩
      by_cases hall : ∀ d ∈ getDeps g x, d ∈ result
      · have hold := (hclosed x).2 ⟨hNL, hall⟩
        exact List.mem_append_left _ hold
      · push_neg at hall
        obtain ⟨d0, hd0, hd0r⟩ := hall
        have hd0node : d0 = node := by
          have hmem2 := hsub d0 hd0
          rcases List.mem_append.1 hmem2 with ha | hb
          · exact absurd ha hd0r
          · simpa using hb
        rw [hd0node] at hd0 hd0r
        have hxkey : x ∈ g.map Prod.fst := mem_getDeps_isKey hd0
        have hdeps_nodup : (getDeps g x).Nodup := getDeps_nodup hk hd x
        have hmne : (getDeps g x).filter (fun d => !result.contains d) ≠ [] := by
          intro he
          have hmm : node ∈ (getDeps g x).filter (fun d => !result.contains d) :=
            List.mem_filter.2 ⟨hd0, not_contains_of_not_mem hd0r⟩
          rw [he] at hmm
          exact List.not_mem_nil node hmm
        have hall_node : ∀ e ∈ (getDeps g x).filter (fun d => !result.contains d),
            e = node := by
          intro e he
          obtain ⟨he1, he2⟩ := List.mem_filter.1 he
          have hmem2 : e ∈ result ++ [node] := hsub e he1
          rcases List.mem_append.1 hmem2 with ha | hb
          · exfalso
            rw [contains_of_mem ha] at he2
            exact Bool.noConfusion he2
          · simpa using hb
        have hmeq : (getDeps g x).filter (fun d => !result.contains d) = [node] :=
          eq_singleton_of_all_eq (hdeps_nodup.filter _) hmne hall_node
        have hdeg1 : degGet indeg x = 1 := by
          have heq := hdeg x hNL
          rw [hmeq] at heq
          simpa using heq
        have hnew : x ∈ (g.filter (fun p =>
            p.2.contains node && (degGet indeg p.1 == 1))).map Prod.fst :=
          (hmem_newly x).2 ⟨hxkey, hd0, hdeg1⟩
        exact List.mem_append_right _ hnew
  · intro x hxNL
    rw [hdg x]
    have hiff : (∃ p ∈ g, p.1 = x ∧ node ∈ p.2) ↔ node ∈ getDeps g x := by
      constructor
      · rintro ⟨p, hp, hpx, hn⟩
        rw [← hpx, getDeps_entry hk hp]
        exact hn
      · intro hn
        have hxkey := mem_getDeps_isKey hn
        obtain ⟨p, hp, hpx⟩ := List.mem_map.1 hxkey
        refine ⟨p, hp, hpx, ?_⟩
        rw [← getDeps_entry hk hp, hpx]
        exact hn
    by_cases hn : node ∈ getDeps g x
    · rw [if_pos (hiff.2 hn), hdeg x hxNL]
      have hcount := filter_snoc_length (getDeps_nodup hk hd x) hn hnode_not_result
      rw [hcount]
      push_cast
      ring
    · rw [if_neg (fun hex => hn (hiff.1 hex)), hdeg x hxNL, filter_snoc_of_not_mem hn]
  · apply depClosedOrder_snoc hordered
    intro d hdd
    rw [List.nil_append]
    exact hnodeDeps d hdd

theorem kahnFinal {g : Graph} {indeg : List (String × Int)} {result : List String}
    (inv : KahnInv g indeg [] result) :
    result.Nodup ∧ depClosedOrder g [] result ∧
      (∀ x, x ∈ result ↔ x ∈ nodeList g ∧ ∀ d ∈ getDeps g x, d ∈ result) := by
  obtain ⟨-, hnodup, hclosed, -, hordered⟩ := inv
  rw [List.append_nil] at hnodup
  refine ⟨hnodup, hordered, ?_⟩
  intro x
  have h := hclosed x
  rwa [List.append_nil] at h

theorem kahnLoop_spec {g : Graph} (hk : (g.map Prod.fst).Nodup)
    (hd : ∀ p ∈ g, p.2.Nodup) :
    ∀ (fuel : Nat) (indeg : List (String × Int)) (queue result : List String),
      KahnInv g indeg queue result →
      (nodeList g).length ≤ fuel + result.length →
      (kahnLoop g fuel indeg queue result).Nodup ∧
      depClosedOrder g [] (kahnLoop g fuel indeg queue result) ∧
      (∀ x, x ∈ kahnLoop g fuel indeg queue result ↔
        x ∈ nodeList g ∧ ∀ d ∈ getDeps g x, d ∈ kahnLoop g fuel indeg queue result) := by
  intro fuel
  induction fuel with
  | zero =>
    intro indeg queue result inv hfuel
    have hqnil : queue = [] := by
      have hsub : ∀ x ∈ result ++ queue, x ∈ nodeList g :=
        fun x hx => ((inv.closed x).1 hx).1
      have hlen := (List.Nodup.subperm inv.nodup hsub).length_le
      rw [List.length_append] at hlen
      have : queue.length = 0 := by omega
      exact List.length_eq_zero.1 this
    subst hqnil
    exact kahnFinal inv
  | succ fuel ih =>
    intro indeg queue result inv hfuel
    cases queue with
    | nil => exact kahnFinal inv
    | cons node rest =>
      have hstep : kahnLoop g (fuel + 1) indeg (node :: rest) result =
          kahnLoop g fuel (decStep g node (indeg, rest)).1
            (decStep g node (indeg, rest)).2 (result ++ [node]) := rfl
      rw [hstep]
      apply ih _ _ _ (kahnInv_step hk hd inv)
      rw [List.length_append, List.length_singleton]
      omega

theorem rank_complete {g : Graph} (hk : (g.map Prod.fst).Nodup)
    (rank : String → Nat) (hrank : ∀ p ∈ g, ∀ d ∈ p.2, rank d < rank p.1)
    {res : List String}
    (hres : ∀ x, x ∈ res ↔ x ∈ nodeList g ∧ ∀ d ∈ getDeps g x, d ∈ res) :
    ∀ x ∈ nodeList g, x ∈ res := by
  have hstep : ∀ n, ∀ x, x ∈ nodeList g → rank x < n → x ∈ res := by
    intro n
    induction n with
    | zero =>
      intro x _ hr
      omega
    | succ n ihn =>
      intro x hx hr
      refine (hres x).2 ⟨hx, ?_⟩
      intro d hdd
      have hxkey := mem_getDeps_isKey hdd
      obtain ⟨p, hp, hpx⟩ := List.mem_map.1 hxkey
      have hrd : rank d < rank x := by
        have h := hrank p hp d (by rw [← getDeps_entry hk hp, hpx]; exact hdd)
        rwa [hpx] at h
      exact ihn d (mem_getDeps_nodeList hdd) (by omega)
  exact fun x hx => hstep (rank x + 1) x hx (Nat.lt_succ_self _)

/-- C6: for every acyclic dependency graph (dict-unique keys, duplicate-free
dependency lists, acyclicity witnessed by a rank function strictly
increasing along every edge), topological_sort places every dependency
before each task that depends on it, and validate_ordering accepts the
output. -/
theorem topological_sort_correct (g : Graph) (hk : (g.map Prod.fst).Nodup)
    (hd : ∀ p ∈ g, p.2.Nodup) (rank : String → Nat)
    (hrank : ∀ p ∈ g, ∀ d ∈ p.2, rank d < rank p.1) :
    (∀ p ∈ g, ∀ d ∈ p.2,
      (topological_sort g).indexOf d < (topological_sort g).indexOf p.1) ∧
    validate_ordering g (topological_sort g) = true := by
  by_cases hge : g.isEmpty = true
  · have hgnil : g = [] := by
      cases g with
      | nil => rfl
      | cons p g' => exact Bool.noConfusion hge
    subst hgnil
    exact ⟨fun p hp => absurd hp (List.not_mem_nil p), rfl⟩
  · have htop : topological_sort g = kahnLoop g (initInDegree g).length (initInDegree g)
        (((initInDegree g).filter (fun p => p.2 == 0)).map Prod.fst) [] := by
      unfold topological_sort
      rw [if_neg hge]
    obtain ⟨hnodup, hordered, hclosed⟩ :=
      kahnLoop_spec hk hd (initInDegree g).length (initInDegree g)
        (((initInDegree g).filter (fun p => p.2 == 0)).map Prod.fst) []
        (kahnInv_init hk)
        (by rw [show (nodeList g).length = (initInDegree g).length from
              List.length_map (initInDegree g) Prod.fst]
            omega)
    rw [htop] at *
    set res := kahnLoop g (initInDegree g).length (initInDegree g)
      (((initInDegree g).filter (fun p => p.2 == 0)).map Prod.fst) [] with hres_def
    have hcomplete := rank_complete hk rank hrank hclosed
    have hedge : ∀ p ∈ g, ∀ d ∈ p.2, res.indexOf d < res.indexOf p.1 := by
      intro p hp dd hdd
      have hkey : p.1 ∈ g.map Prod.fst := List.mem_map_of_mem Prod.fst hp
      have hx_res : p.1 ∈ res := hcomplete p.1 (keys_subset_nodeList hkey)
      have hdd' : dd ∈ getDeps g p.1 := by
        rw [getDeps_entry hk hp]
        exact hdd
      rcases depClosedOrder_indexOf hordered
          (by rw [List.nil_append]; exact hnodup) p.1 hx_res dd hdd' with habs | ⟨-, hlt⟩
      · exact absurd habs (List.not_mem_nil dd)
      · exact hlt
    refine ⟨hedge, ?_⟩
    have hgne : g ≠ [] := by
      intro he
      rw [he] at hge
      exact hge rfl
    obtain ⟨p0, hp0⟩ := List.exists_mem_of_ne_nil g hgne
    have hresne : res ≠ [] :=
      List.ne_nil_of_mem (hcomplete p0.1
        (keys_subset_nodeList (List.mem_map_of_mem Prod.fst hp0)))
    have hgeF : g.isEmpty = false := by
      cases hgi : g.isEmpty
      · rfl
      · exact absurd hgi hge
    have hresF : res.isEmpty = false := by
      cases hri : res.isEmpty
      · rfl
      · exact absurd (List.isEmpty_iff.1 hri) hresne
    unfold validate_ordering
    rw [if_neg (by rw [hgeF]; simp), if_neg (by rw [hgeF, hresF]; simp)]
    rw [Bool.and_eq_true, Bool.and_eq_true, List.all_eq_true, List.all_eq_true,
      List.all_eq_true]
    refine ⟨⟨?_, ?_⟩, ?_⟩
    · intro x hx
      exact inAllNodes_iff.2 ((hclosed x).1 hx).1
    · intro p hp
      rw [Bool.and_eq_true]
      constructor
      · exact contains_of_mem (hcomplete p.1
          (keys_subset_nodeList (List.mem_map_of_mem Prod.fst hp)))
      · rw [List.all_eq_true]
        intro d hdd
        exact contains_of_mem (hcomplete d (deps_subset_nodeList hp hdd))
    · intro p hp
      rw [List.all_eq_true]
      intro dep hdep
      rw [decide_eq_true_eq]
      rw [lastPos_eq_indexOf hnodup (hcomplete dep (deps_subset_nodeList hp hdep)),
        lastPos_eq_indexOf hnodup (hcomplete p.1
          (keys_subset_nodeList (List.mem_map_of_mem Prod.fst hp)))]
      exact hedge p hp dep hdep

theorem topological_sort_correct_witness :
    validate_ordering exG2 (topological_sort exG2) = true :=
  (topological_sort_correct exG2 (by decide) (by decide) rankW (by decide)).2

/-! ### The batch loop invariant -/

theorem exists_dep_iff {g : Graph} (hk : (g.map Prod.fst).Nodup) {x n : String} :
    (∃ p ∈ g, p.1 = x ∧ n ∈ p.2) ↔ n ∈ getDeps g x := by
  constructor
  · rintro ⟨p, hp, hpx, hn⟩
    rw [← hpx, getDeps_entry hk hp]
    exact hn
  · intro hn
    obtain ⟨p, hp, hpx⟩ := List.mem_map.1 (mem_getDeps_isKey hn)
    refine ⟨p, hp, hpx, ?_⟩
    rw [← getDeps_entry hk hp, hpx]
    exact hn

theorem mem_decStep_newly {g : Graph} (hk : (g.map Prod.fst).Nodup)
    {indeg : List (String × Int)} {node x : String} :
    x ∈ (g.filter (fun p => p.2.contains node && (degGet indeg p.1 == 1))).map Prod.fst ↔
      x ∈ g.map Prod.fst ∧ node ∈ getDeps g x ∧ degGet indeg x = 1 := by
  simp only [List.mem_map, List.mem_filter, Bool.and_eq_true, beq_iff_eq]
  constructor
  · rintro ⟨p, ⟨hp, hcont, hdeg1⟩, rfl⟩
    refine ⟨⟨p, hp, rfl⟩, ?_, hdeg1⟩
    rw [getDeps_entry hk hp]
    exact mem_of_contains hcont
  · rintro ⟨⟨p, hp, hpx⟩, hnd_dep, hdeg1⟩
    refine ⟨p, ⟨hp, ?_, ?_⟩, hpx⟩
    · apply contains_of_mem
      rw [← getDeps_entry hk hp, hpx]
      exact hnd_dep
    · rw [hpx]
      exact hdeg1

theorem nodup_decStep_newly {g : Graph} (hk : (g.map Prod.fst).Nodup)
    {indeg : List (String × Int)} {node : String} :
    ((g.filter (fun p => p.2.contains node && (degGet indeg p.1 == 1))).map Prod.fst).Nodup :=
  List.Nodup.sublist ((List.filter_sublist _).map Prod.fst) hk

theorem filter_not_contains_len_one {deps : List String} {R : List String} {n : String}
    (hn : n ∈ deps) (hnR : n ∉ R)
    (hlen : (deps.filter (fun d => !R.contains d)).length = 1) :
    ∀ d ∈ deps, d ∈ R ++ [n] := by
  obtain ⟨c, hc⟩ := List.length_eq_one.1 hlen
  have hnodemem : n ∈ deps.filter (fun d => !R.contains d) :=
    List.mem_filter.2 ⟨hn, not_contains_of_not_mem hnR⟩
  have hcn : c = n := by
    rw [hc] at hnodemem
    exact (by simpa using hnodemem : n = c).symm
  intro d hdd
  by_cases hdr : d ∈ R
  · exact List.mem_append_left _ hdr
  · have hdm : d ∈ deps.filter (fun d => !R.contains d) :=
      List.mem_filter.2 ⟨hdd, not_contains_of_not_mem hdr⟩
    rw [hc] at hdm
    have : d = c := by simpa using hdm
    rw [this, hcn]
    exact List.mem_append_right _ (List.mem_singleton.2 rfl)

theorem filter_not_contains_singleton {deps : List String} (hnd : deps.Nodup)
    {R : List String} {n : String} (hn : n ∈ deps) (hnR : n ∉ R)
    (hsub : ∀ d ∈ deps, d ∈ R ++ [n]) :
    deps.filter (fun d => !R.contains d) = [n] := by
  refine eq_singleton_of_all_eq (hnd.filter _) ?_ ?_
  · intro he
    have hmm : n ∈ deps.filter (fun d => !R.contains d) :=
      List.mem_filter.2 ⟨hn, not_contains_of_not_mem hnR⟩
    rw [he] at hmm
    exact List.not_mem_nil n hmm
  · intro e he
    obtain ⟨he1, he2⟩ := List.mem_filter.1 he
    rcases List.mem_append.1 (hsub e he1) with ha | hb
    · exfalso
      rw [contains_of_mem ha] at he2
      exact Bool.noConfusion he2
    · simpa using hb

theorem filter_not_contains_nil_of_subset {deps : List String} {R : List String}
    (hsub : ∀ d ∈ deps, d ∈ R) :
    deps.filter (fun d => !R.contains d) = [] := by
  rw [List.filter_eq_nil_iff]
  intro d hdd h
  rw [Bool.not_eq_true'] at h
  rw [contains_of_mem (hsub d hdd)] at h
  exact Bool.noConfusion h

theorem batchOrder_snoc {g : Graph} {C : List String} :
    ∀ {bs : List (List String)} {acc : List String}, batchOrder g acc bs →
      (∀ x ∈ C, ∀ d ∈ getDeps g x, d ∈ acc ++ bs.flatten) →
      batchOrder g acc (bs ++ [C]) := by
  intro bs
  induction bs with
  | nil =>
    intro acc _ hC
    refine ⟨fun x hx d hdd => ?_, trivial⟩
    have := hC x hx d hdd
    simpa using this
  | cons b bs' ih =>
    intro acc h hC
    refine ⟨h.1, ih h.2 (fun x hx d hdd => ?_)⟩
    have := hC x hx d hdd
    rw [List.flatten_cons] at this
    rwa [List.append_assoc]

theorem batchOrder_take {g : Graph} :
    ∀ {bs : List (List String)} {acc : List String}, batchOrder g acc bs →
      ∀ (k : Nat) (hkk : k < bs.length), ∀ x ∈ bs.get ⟨k, hkk⟩, ∀ d ∈ getDeps g x,
        d ∈ acc ++ (bs.take k).flatten := by
  intro bs
  induction bs with
  | nil =>
    intro acc _ k hkk
    exact absurd hkk (by simp)
  | cons b bs' ih =>
    intro acc h k hkk x hx d hdd
    cases k with
    | zero =>
      simp only [List.take_zero, List.flatten_nil, List.append_nil]
      exact h.1 x hx d hdd
    | succ k' =>
      have := ih h.2 k' (by simpa using hkk) x hx d hdd
      rw [List.take_succ_cons, List.flatten_cons, ← List.append_assoc]
      exact this

theorem batchFold {g : Graph} (hk : (g.map Prod.fst).Nodup) (hd : ∀ p ∈ g, p.2.Nodup)
    (P C : List String)
    (hclosedPC : ∀ x, x ∈ P ++ C ↔ x ∈ nodeList g ∧ ∀ d ∈ getDeps g x, d ∈ P)
    (hnodupPC : (P ++ C).Nodup) :
    ∀ (todo done : List String) (indeg : List (String × Int)) (next : List String),
      C = done ++ todo →
      indeg.map Prod.fst = nodeList g →
      (∀ x ∈ nodeList g, degGet indeg x =
        (((getDeps g x).filter (fun d => !(P ++ done).contains d)).length : Int)) →
      (∀ x, x ∈ next ↔ x ∈ g.map Prod.fst ∧
        (∀ d ∈ getDeps g x, d ∈ P ++ done) ∧ ¬(∀ d ∈ getDeps g x, d ∈ P)) →
      next.Nodup →
      ((todo.foldl (fun st node => decStep g node st) (indeg, next)).1.map Prod.fst =
        nodeList g) ∧
      (∀ x ∈ nodeList g,
        degGet (todo.foldl (fun st node => decStep g node st) (indeg, next)).1 x =
        (((getDeps g x).filter (fun d => !(P ++ C).contains d)).length : Int)) ∧
      (∀ x, x ∈ (todo.foldl (fun st node => decStep g node st) (indeg, next)).2 ↔
        x ∈ g.map Prod.fst ∧
        (∀ d ∈ getDeps g x, d ∈ P ++ C) ∧ ¬(∀ d ∈ getDeps g x, d ∈ P)) ∧
      (todo.foldl (fun st node => decStep g node st) (indeg, next)).2.Nodup := by
  intro todo
  induction todo with
  | nil =>
    intro done indeg next hC hkeys hdeg hnext hndnext
    rw [List.append_nil] at hC
    subst hC
    exact ⟨hkeys, hdeg, hnext, hndnext⟩
  | cons n todo' ih =>
    intro done indeg next hC hkeys hdeg hnext hndnext
    have hnC : n ∈ C := by
      rw [hC]
      exact List.mem_append_right _ (List.mem_cons_self n todo')
    have hnPC : n ∈ P ++ C := List.mem_append_right _ hnC
    obtain ⟨hnNL, hnDepsP⟩ := (hclosedPC n).1 hnPC
    have hnotP : n ∉ P := by
      obtain ⟨-, -, hdisj⟩ := List.nodup_append.1 hnodupPC
      exact fun hP => hdisj hP hnC
    have hCnodup : C.Nodup := (List.nodup_append.1 hnodupPC).2.1
    have hn_not_done : n ∉ done := by
      rw [hC] at hCnodup
      obtain ⟨-, -, hdisj⟩ := List.nodup_append.1 hCnodup
      exact fun hdn => hdisj hdn (List.mem_cons_self n todo')
    have hnPdone : n ∉ P ++ done := by
      intro hmem
      rcases List.mem_append.1 hmem with h | h
      exacts [hnotP h, hn_not_done h]
    have hkeys_sub : ∀ p ∈ g, p.1 ∈ indeg.map Prod.fst := fun p hp => by
      rw [hkeys]
      exact keys_subset_nodeList (List.mem_map_of_mem Prod.fst hp)
    obtain ⟨hK, hdg, hsnd⟩ := decStep_fold n g indeg next hk hkeys_sub
    have hC' : C = (done ++ [n]) ++ todo' := by
      rw [hC, List.append_assoc, List.singleton_append]
    -- the intermediate state after processing n
    have hkeys1 : (decStep g n (indeg, next)).1.map Prod.fst = nodeList g := by
      rw [hK, hkeys]
    have hdeg1 : ∀ x ∈ nodeList g, degGet (decStep g n (indeg, next)).1 x =
        (((getDeps g x).filter
          (fun d => !(P ++ (done ++ [n])).contains d)).length : Int) := by
      intro x hxNL
      rw [hdg x, ← List.append_assoc]
      by_cases hn : n ∈ getDeps g x
      · rw [if_pos ((exists_dep_iff hk).2 hn), hdeg x hxNL,
          filter_snoc_length (getDeps_nodup hk hd x) hn hnPdone]
        push_cast
        ring
      · rw [if_neg (fun hex => hn ((exists_dep_iff hk).1 hex)), hdeg x hxNL,
          filter_snoc_of_not_mem hn]
    have hnext1 : ∀ x, x ∈ (decStep g n (indeg, next)).2 ↔
        x ∈ g.map Prod.fst ∧ (∀ d ∈ getDeps g x, d ∈ P ++ (done ++ [n])) ∧
          ¬(∀ d ∈ getDeps g x, d ∈ P) := by
      intro x
      rw [hsnd, List.mem_append]
      constructor
      · rintro (hx | hx)
        · obtain ⟨hkey, hsub, hnotPx⟩ := (hnext x).1 hx
          refine ⟨hkey, fun d hdd => ?_, hnotPx⟩
          rw [← List.append_assoc]
          exact List.mem_append_left _ (hsub d hdd)
        · obtain ⟨hkey, hnx, hdegx⟩ := (mem_decStep_newly hk).1 hx
          have hxNL := keys_subset_nodeList hkey
          have hlen1 : ((getDeps g x).filter
              (fun d => !(P ++ done).contains d)).length = 1 := by
            have := hdeg x hxNL
            rw [hdegx] at this
            exact_mod_cast this.symm
          refine ⟨hkey, fun d hdd => ?_, fun hall => hnotP (hall n hnx)⟩
          rw [← List.append_assoc]
          exact filter_not_contains_len_one hnx hnPdone hlen1 d hdd
      · rintro ⟨hkey, hsub, hnotPx⟩
        by_cases hall : ∀ d ∈ getDeps g x, d ∈ P ++ done
        · exact Or.inl ((hnext x).2 ⟨hkey, hall, hnotPx⟩)
        · push_neg at hall
          obtain ⟨d0, hd0, hd0r⟩ := hall
          have hd0n : d0 = n := by
            have := hsub d0 hd0
            rw [← List.append_assoc] at this
            rcases List.mem_append.1 this with ha | hb
            · exact absurd ha hd0r
            · simpa using hb
          rw [hd0n] at hd0
          have hxNL := keys_subset_nodeList hkey
          have hsing : (getDeps g x).filter (fun d => !(P ++ done).contains d) = [n] :=
            filter_not_contains_singleton (getDeps_nodup hk hd x) hd0 hnPdone
              (fun d hdd => by
                have := hsub d hdd
                rwa [← List.append_assoc] at this)
          have hdegx : degGet indeg x = 1 := by
            have := hdeg x hxNL
            rw [hsing] at this
            simpa using this
          exact Or.inr ((mem_decStep_newly hk).2 ⟨hkey, hd0, hdegx⟩)
    have hndnext1 : (decStep g n (indeg, next)).2.Nodup := by
      rw [hsnd, List.nodup_append]
      refine ⟨hndnext, nodup_decStep_newly hk, ?_⟩
      intro a ha ha'
      obtain ⟨hkey, hsub, -⟩ := (hnext a).1 ha
      obtain ⟨-, -, hdeg1a⟩ := (mem_decStep_newly hk).1 ha'
      have haNL := keys_subset_nodeList hkey
      have := hdeg a haNL
      rw [hdeg1a, filter_not_contains_nil_of_subset hsub] at this
      simp at this
    have hres := ih (done ++ [n]) (decStep g n (indeg, next)).1
      (decStep g n (indeg, next)).2 hC' hkeys1 hdeg1 hnext1 hndnext1
    exact hres

theorem batchInv_init {g : Graph} (hk : (g.map Prod.fst).Nodup) :
    BatchInv g (initInDegree g)
      (((initInDegree g).filter (fun p => p.2 == 0)).map Prod.fst) [] := by
  obtain ⟨h1, h2, h3, h4, -⟩ := kahnInv_init hk
  exact ⟨h1, h2, h3, h4, trivial⟩

theorem flatten_snoc (batches : List (List String)) (current : List String) :
    (batches ++ [current]).flatten = batches.flatten ++ current := by
  rw [List.flatten_append, List.flatten_cons, List.flatten_nil, List.append_nil]

theorem batchInv_step {g : Graph} (hk : (g.map Prod.fst).Nodup)
    (hd : ∀ p ∈ g, p.2.Nodup) {indeg : List (String × Int)}
    {current : List String} {batches : List (List String)}
    (inv : BatchInv g indeg current batches) :
    BatchInv g (current.foldl (fun st node => decStep g node st) (indeg, [])).1
      (current.foldl (fun st node => decStep g node st) (indeg, [])).2
      (batches ++ [current]) := by
  obtain ⟨hkeys, hnodup, hclosed, hdeg, hordered⟩ := inv
  obtain ⟨hK, hdegF, hnextF, hndF⟩ :=
    batchFold hk hd batches.flatten current hclosed hnodup current [] indeg []
      rfl hkeys
      (by intro x hx
          have h := hdeg x hx
          rwa [← List.append_nil batches.flatten] at h)
      (by intro x
          constructor
          · intro hx
            exact absurd hx (List.not_mem_nil x)
          · rintro ⟨-, hsub, hnot⟩
            exact absurd (fun d hdd => by
              have := hsub d hdd
              rwa [List.append_nil] at this) hnot)
      List.nodup_nil
  have hflat := flatten_snoc batches current
  refine ⟨hK, ?_, ?_, ?_, ?_⟩
  · rw [hflat, List.nodup_append]
    refine ⟨hnodup, hndF, ?_⟩
    intro a ha ha'
    obtain ⟨-, -, hnot⟩ := (hnextF a).1 ha'
    exact hnot ((hclosed a).1 ha).2
  · intro x
    rw [hflat, List.mem_append]
    constructor
    · rintro (hx | hx)
      · obtain ⟨hNL, hsub⟩ := (hclosed x).1 hx
        exact ⟨hNL, fun d hdd => List.mem_append_left _ (hsub d hdd)⟩
      · obtain ⟨hkey, hsub, -⟩ := (hnextF x).1 hx
        exact ⟨keys_subset_nodeList hkey, hsub⟩
    · rintro ⟨hNL, hsub⟩
      by_cases hall : ∀ d ∈ getDeps g x, d ∈ batches.flatten
      · exact Or.inl ((hclosed x).2 ⟨hNL, hall⟩)
      · have hall' := hall
        push_neg at hall'
        obtain ⟨d0, hd0, -⟩ := hall'
        have hxkey : x ∈ g.map Prod.fst := mem_getDeps_isKey hd0
        exact Or.inr ((hnextF x).2 ⟨hxkey, hsub, hall⟩)
  · intro x hx
    rw [hflat]
    exact hdegF x hx
  · apply batchOrder_snoc hordered
    intro x hx d hdd
    rw [List.nil_append]
    exact ((hclosed x).1 (List.mem_append_right _ hx)).2 d hdd

theorem batchFinal {g : Graph} {indeg : List (String × Int)}
    {batches : List (List String)} (inv : BatchInv g indeg [] batches) :
    batches.flatten.Nodup ∧ batchOrder g [] batches ∧
      (∀ x, x ∈ batches.flatten ↔
        x ∈ nodeList g ∧ ∀ d ∈ getDeps g x, d ∈ batches.flatten) := by
  obtain ⟨-, hnodup, hclosed, -, hordered⟩ := inv
  rw [List.append_nil] at hnodup
  refine ⟨hnodup, hordered, fun x => ?_⟩
  have h := hclosed x
  rwa [List.append_nil] at h

theorem batchLoop_spec {g : Graph} (hk : (g.map Prod.fst).Nodup)
    (hd : ∀ p ∈ g, p.2.Nodup) :
    ∀ (fuel : Nat) (indeg : List (String × Int)) (current : List String)
      (batches : List (List String)), BatchInv g indeg current batches →
      (nodeList g).length ≤ fuel + batches.flatten.length →
      (batchLoop g fuel indeg current batches).flatten.Nodup ∧
      batchOrder g [] (batchLoop g fuel indeg current batches) ∧
      (∀ x, x ∈ (batchLoop g fuel indeg current batches).flatten ↔
        x ∈ nodeList g ∧
          ∀ d ∈ getDeps g x, d ∈ (batchLoop g fuel indeg current batches).flatten) := by
  intro fuel
  induction fuel with
  | zero =>
    intro indeg current batches inv hfuel
    have hcnil : current = [] := by
      have hsub : ∀ x ∈ batches.flatten ++ current, x ∈ nodeList g :=
        fun x hx => ((inv.closed x).1 hx).1
      have hlen := (List.Nodup.subperm inv.nodup hsub).length_le
      rw [List.length_append] at hlen
      exact List.length_eq_zero.1 (by omega)
    subst hcnil
    exact batchFinal inv
  | succ fuel ih =>
    intro indeg current batches inv hfuel
    by_cases hce : current.isEmpty = true
    · have hcnil : current = [] := List.isEmpty_iff.1 hce
      subst hcnil
      exact batchFinal inv
    · have hloop : batchLoop g (fuel + 1) indeg current batches =
          batchLoop g fuel
            (current.foldl (fun st node => decStep g node st) (indeg, [])).1
            (current.foldl (fun st node => decStep g node st) (indeg, [])).2
            (batches ++ [current]) := by
        have he : batchLoop g (fuel + 1) indeg current batches =
            if current.isEmpty then batches else
              batchLoop g fuel
                (current.foldl (fun st node => decStep g node st) (indeg, [])).1
                (current.foldl (fun st node => decStep g node st) (indeg, [])).2
                (batches ++ [current]) := rfl
        rw [he, if_neg hce]
      rw [hloop]
      have hcne : current ≠ [] := fun he => hce (by rw [he]; rfl)
      apply ih _ _ _ (batchInv_step hk hd inv)
      rw [flatten_snoc, List.length_append]
      have hcpos : 0 < current.length := List.length_pos.2 hcne
      omega

/-- C7: for every acyclic dependency graph (dict-unique keys, duplicate-free
dependency lists, acyclicity witnessed by an edge-increasing rank function),
the batches of get_parallel_batches concatenate to exactly the full node set
(keys plus dependency-only ids) with no duplicates, every task in batch k
depends only on tasks in batches 0..k-1, and no batch contains two nodes
with a direct dependency between them. -/
theorem get_parallel_batches_correct (g : Graph) (hk : (g.map Prod.fst).Nodup)
    (hd : ∀ p ∈ g, p.2.Nodup) (rank : String → Nat)
    (hrank : ∀ p ∈ g, ∀ d ∈ p.2, rank d < rank p.1) :
    (∀ x, x ∈ (get_parallel_batches g).flatten ↔
      (x ∈ g.map Prod.fst ∨ ∃ p ∈ g, x ∈ p.2)) ∧
    (get_parallel_batches g).flatten.Nodup ∧
    (∀ (k : Nat) (hkk : k < (get_parallel_batches g).length),
      ∀ x ∈ (get_parallel_batches g).get ⟨k, hkk⟩, ∀ d ∈ getDeps g x,
        d ∈ ((get_parallel_batches g).take k).flatten) ∧
    (∀ b ∈ get_parallel_batches g, ∀ x ∈ b, ∀ y ∈ b, x ∈ getDeps g y → False) := by
  by_cases hge : g.isEmpty = true
  · have hgnil : g = [] := by
      cases g with
      | nil => rfl
      | cons p g' => exact Bool.noConfusion hge
    subst hgnil
    refine ⟨?_, ?_, ?_, ?_⟩
    · intro x
      constructor
      · intro hx
        exact absurd hx (List.not_mem_nil x)
      · rintro (hx | ⟨p, hp, -⟩)
        · exact absurd hx (List.not_mem_nil x)
        · exact absurd hp (List.not_mem_nil p)
    · exact List.nodup_nil
    · intro k hkk
      exact absurd hkk (by simp [get_parallel_batches])
    · intro b hb
      exact absurd hb (List.not_mem_nil b)
  · have hbat : get_parallel_batches g = batchLoop g (initInDegree g).length
        (initInDegree g) (((initInDegree g).filter (fun p => p.2 == 0)).map Prod.fst)
        [] := by
      unfold get_parallel_batches
      rw [if_neg hge]
    obtain ⟨hnodup, hordered, hclosed⟩ :=
      batchLoop_spec hk hd (initInDegree g).length (initInDegree g)
        (((initInDegree g).filter (fun p => p.2 == 0)).map Prod.fst) []
        (batchInv_init hk)
        (by rw [show (nodeList g).length = (initInDegree g).length from
              List.length_map (initInDegree g) Prod.fst]
            omega)
    rw [hbat]
    set B := batchLoop g (initInDegree g).length (initInDegree g)
      (((initInDegree g).filter (fun p => p.2 == 0)).map Prod.fst) [] with hB
    have hcomplete := rank_complete hk rank hrank hclosed
    have hmemflat : ∀ x, x ∈ B.flatten ↔ x ∈ nodeList g := fun x =>
      ⟨fun hx => ((hclosed x).1 hx).1, fun hx => hcomplete x hx⟩
    have htake : ∀ (k : Nat) (hkk : k < B.length),
        ∀ x ∈ B.get ⟨k, hkk⟩, ∀ d ∈ getDeps g x, d ∈ (B.take k).flatten := by
      intro k hkk x hx d hdd
      have h := batchOrder_take hordered k hkk x hx d hdd
      rwa [List.nil_append] at h
    refine ⟨?_, hnodup, htake, ?_⟩
    · intro x
      rw [hmemflat x, mem_nodeList]
    · intro b hb x hx y hy hxy
      obtain ⟨⟨k, hkk⟩, hbk⟩ := List.mem_iff_get.1 hb
      have hxin : x ∈ (B.take k).flatten :=
        htake k hkk y (by rw [hbk]; exact hy) x hxy
      have hdecomp : B.flatten =
          (B.take k).flatten ++ (B.get ⟨k, hkk⟩ ++ (B.drop (k + 1)).flatten) := by
        conv =>
          lhs
          rw [← List.take_append_drop k B]
        rw [List.flatten_append, List.drop_eq_getElem_cons hkk, List.flatten_cons]
        rfl
      rw [hdecomp, List.nodup_append] at hnodup
      obtain ⟨-, -, hdisj⟩ := hnodup
      exact hdisj hxin (List.mem_append_left _ (by rw [hbk]; exact hx))

theorem get_parallel_batches_correct_witness :
    (get_parallel_batches exG2).flatten.Nodup :=
  (get_parallel_batches_correct exG2 (by decide) (by decide) rankW (by decide)).2.1

end Sched
